import Mathlib

/-!
Verification development for the placeholder scanner / run-aware substitution
engine of the auto-letter document service
(`backend/app/services/document_generator.py` and
`backend/app/services/template_parser.py`).

Text is modelled as `List Char`.  Paragraphs are lists of run texts (the
styling attributes of a run are irrelevant to every property proved here:
the code only ever reassigns the `text` of a run, never its style, so a run
is represented by its text).  The docx container library is modelled by the
document tree it exposes (body paragraphs, tables of rows of cells, sections
with header/footer).  File I/O is modelled by an `Except` input: the outcome
of opening/reading the document.
-/

namespace AutoLetter

abbrev Run := List Char
abbrev Para := List Run
abbrev Name := List Char

/-- Shorthand turning a string literal into the `List Char` text model. -/
def str (s : String) : List Char := s.data

/-- `\w` of the placeholder regex `\x7b\x7b(\w+)\x7d\x7d` (ASCII fragment):
letters, digits or underscore. -/
def isWordChar (c : Char) : Bool := c.isAlphanum || c == '_'

/-- Recognize the two closing braces of the placeholder token at the head of
the text; returns the remainder after them. -/
def closeBraces : List Char → Option (List Char)
  | c1 :: c2 :: r => if c1 = '}' ∧ c2 = '}' then some r else none
  | _ => none

theorem closeBraces_eq {s r : List Char} (h : closeBraces s = some r) :
    s = '}' :: '}' :: r := by
  rcases s with _ | ⟨c1, _ | ⟨c2, t⟩⟩
  · simp [closeBraces] at h
  · simp [closeBraces] at h
  · by_cases hb : c1 = '}' ∧ c2 = '}'
    · obtain ⟨h1, h2⟩ := hb
      subst h1; subst h2
      simp [closeBraces] at h
      subst h; rfl
    · simp [closeBraces, hb] at h

/-- Matching engine for the tail of the placeholder regex: consumes a greedy
nonempty `\w+` followed by the two closing braces; returns the captured name
and the text after the whole match.  Because `\w` never matches a closing
brace, this backtracking-free maximal munch is exactly the regex semantics. -/
def tryName : List Char → Option (Name × List Char)
  | [] => none
  | c :: cs =>
    if isWordChar c then
      match tryName cs with
      | some (n, r) => some (c :: n, r)
      | none =>
        match closeBraces cs with
        | some r => some ([c], r)
        | none => none
    else none

/-- Try to match the placeholder regex at the head of the text: two opening
braces, then `\w+`, then two closing braces. Returns the captured name and
the remainder after the match. -/
def tryMatch : List Char → Option (Name × List Char)
  | c1 :: c2 :: rest => if c1 = '{' ∧ c2 = '{' then tryName rest else none
  | _ => none

theorem tryName_eq {s : List Char} {n : Name} {r : List Char}
    (h : tryName s = some (n, r)) :
    s = n ++ '}' :: '}' :: r ∧ n ≠ [] := by
  induction s generalizing n r with
  | nil => simp [tryName] at h
  | cons c cs ih =>
    rw [tryName] at h
    cases hw : isWordChar c with
    | false => simp [hw] at h
    | true =>
      rw [hw] at h
      simp only [if_pos] at h
      rcases hn : tryName cs with _ | ⟨n', r'⟩ <;> rw [hn] at h
      · rcases hc : closeBraces cs with _ | r'' <;> rw [hc] at h
        · cases h
        · cases h
          have := closeBraces_eq hc
          subst this
          simp
      · cases h
        obtain ⟨hcs, _⟩ := ih hn
        subst hcs
        simp

theorem tryMatch_eq {s : List Char} {n : Name} {r : List Char}
    (h : tryMatch s = some (n, r)) :
    s = '{' :: '{' :: (n ++ '}' :: '}' :: r) ∧ n ≠ [] := by
  rcases s with _ | ⟨c1, _ | ⟨c2, t⟩⟩
  · simp [tryMatch] at h
  · simp [tryMatch] at h
  · by_cases hb : c1 = '{' ∧ c2 = '{'
    · obtain ⟨h1, h2⟩ := hb
      subst h1; subst h2
      rw [tryMatch, if_pos ⟨rfl, rfl⟩] at h
      obtain ⟨h1, h2⟩ := tryName_eq h
      subst h1
      exact ⟨rfl, h2⟩
    · rw [tryMatch, if_neg hb] at h
      cases h

theorem tryMatch_length {s : List Char} {n : Name} {r : List Char}
    (h : tryMatch s = some (n, r)) :
    s.length = n.length + 4 + r.length := by
  obtain ⟨h1, _⟩ := tryMatch_eq h
  subst h1
  simp
  omega

/-- One placeholder match found by `re.finditer`: character span
`[s, e)` in the paragraph's full text, and the captured group (the name). -/
structure PMatch where
  s : Nat
  e : Nat
  name : Name
deriving DecidableEq, Repr

/-- Fuel-indexed core of the `re.finditer` scan (structural recursion on the
fuel so that concrete instances evaluate inside the kernel; one unit of fuel
is spent per character examined, so fuel = text length always suffices —
`findMatchesAux_fuel` below proves the fuel is irrelevant beyond that). -/
def findMatchesAux : Nat → List Char → Nat → List PMatch
  | 0, _, _ => []
  | _ + 1, [], _ => []
  | fuel + 1, c :: rest, pos =>
    match tryMatch (c :: rest) with
    | some (name, rest') =>
      ⟨pos, pos + (name.length + 4), name⟩ ::
        findMatchesAux fuel rest' (pos + (name.length + 4))
    | none => findMatchesAux fuel rest (pos + 1)

/-- `list(re.finditer(pattern, text))`: scan the text left to right, at each
position try the placeholder regex; on a match record its absolute span and
captured name and resume after the match (non-overlapping matches), else
advance one character.  `pos` is the absolute position of the head of `l`. -/
def findMatches (l : List Char) (pos : Nat) : List PMatch :=
  findMatchesAux l.length l pos

theorem findMatchesAux_fuel :
    ∀ (f1 : Nat) {f2 : Nat} {l : List Char} {pos : Nat},
      l.length ≤ f1 → l.length ≤ f2 →
      findMatchesAux f1 l pos = findMatchesAux f2 l pos := by
  intro f1
  induction f1 with
  | zero =>
    intro f2 l pos h1 _
    have : l = [] := List.length_eq_zero.mp (Nat.le_zero.mp h1)
    subst this
    cases f2 <;> rfl
  | succ f ih =>
    intro f2 l pos h1 h2
    cases l with
    | nil => cases f2 <;> rfl
    | cons c rest =>
      cases f2 with
      | zero => simp at h2
      | succ f2' =>
        rw [findMatchesAux, findMatchesAux]
        rcases hm : tryMatch (c :: rest) with _ | ⟨name, rest'⟩
        · simp only []
          have hr : rest.length ≤ f := by simp at h1; omega
          have hr2 : rest.length ≤ f2' := by simp at h2; omega
          exact ih hr hr2
        · simp only []
          have hl := tryMatch_length hm
          have hr : rest'.length ≤ f := by simp at h1 hl; omega
          have hr2 : rest'.length ≤ f2' := by simp at h2 hl; omega
          rw [ih hr hr2]

/-- One-step unfolding of `findMatches` on a nonempty text. -/
theorem findMatches_cons (c : Char) (rest : List Char) (pos : Nat) :
    findMatches (c :: rest) pos =
      match tryMatch (c :: rest) with
      | some (name, rest') =>
        ⟨pos, pos + (name.length + 4), name⟩ ::
          findMatches rest' (pos + (name.length + 4))
      | none => findMatches rest (pos + 1) := by
  show findMatchesAux (rest.length + 1) (c :: rest) pos = _
  rw [findMatchesAux]
  rcases hm : tryMatch (c :: rest) with _ | ⟨name, rest'⟩
  · rfl
  · simp only []
    have hl := tryMatch_length hm
    have : rest'.length ≤ rest.length := by simp at hl; omega
    rw [findMatchesAux_fuel rest.length this (Nat.le_refl _)]
    rfl

theorem findMatches_nil (pos : Nat) : findMatches [] pos = [] := rfl

/-- `re.search(pattern, text)` viewed as a Boolean: does the text contain at
least one placeholder match?  (`DocumentGenerator._contains_placeholders`). -/
def containsPlaceholders (t : List Char) : Bool :=
  !(findMatches t 0).isEmpty

/-- Fuel-indexed core of the scan-and-replace (same fuel discipline as
`findMatchesAux`). -/
def renderWithAux (f : Name → List Char) : Nat → List Char → List Char
  | 0, _ => []
  | _ + 1, [] => []
  | fuel + 1, c :: rest =>
    match tryMatch (c :: rest) with
    | some (name, rest') => f name ++ renderWithAux f fuel rest'
    | none => c :: renderWithAux f fuel rest

/-- Left-to-right scan-and-replace over a text: every placeholder match is
replaced by `f` applied to its captured name, all other characters are kept
verbatim.  With the appropriate `f` this is both the semantics of `re.sub`
(used by `preview_replacements`) and the specification-side description of
what a processed paragraph's text must be. -/
def renderWith (f : Name → List Char) (l : List Char) : List Char :=
  renderWithAux f l.length l

theorem renderWithAux_fuel (f : Name → List Char) :
    ∀ (f1 : Nat) {f2 : Nat} {l : List Char},
      l.length ≤ f1 → l.length ≤ f2 →
      renderWithAux f f1 l = renderWithAux f f2 l := by
  intro f1
  induction f1 with
  | zero =>
    intro f2 l h1 _
    have : l = [] := List.length_eq_zero.mp (Nat.le_zero.mp h1)
    subst this
    cases f2 <;> rfl
  | succ fu ih =>
    intro f2 l h1 h2
    cases l with
    | nil => cases f2 <;> rfl
    | cons c rest =>
      cases f2 with
      | zero => simp at h2
      | succ f2' =>
        rw [renderWithAux, renderWithAux]
        rcases hm : tryMatch (c :: rest) with _ | ⟨name, rest'⟩
        · simp only []
          have hr : rest.length ≤ fu := by simp at h1; omega
          have hr2 : rest.length ≤ f2' := by simp at h2; omega
          rw [ih hr hr2]
        · simp only []
          have hl := tryMatch_length hm
          have hr : rest'.length ≤ fu := by simp at h1 hl; omega
          have hr2 : rest'.length ≤ f2' := by simp at h2 hl; omega
          rw [ih hr hr2]

/-- One-step unfolding of `renderWith` on a nonempty text. -/
theorem renderWith_cons (f : Name → List Char) (c : Char) (rest : List Char) :
    renderWith f (c :: rest) =
      match tryMatch (c :: rest) with
      | some (name, rest') => f name ++ renderWith f rest'
      | none => c :: renderWith f rest := by
  show renderWithAux f (rest.length + 1) (c :: rest) = _
  rw [renderWithAux]
  rcases hm : tryMatch (c :: rest) with _ | ⟨name, rest'⟩
  · rfl
  · simp only []
    have hl := tryMatch_length hm
    have : rest'.length ≤ rest.length := by simp at hl; omega
    rw [renderWithAux_fuel f rest.length this (Nat.le_refl _)]
    rfl

theorem renderWith_nil (f : Name → List Char) : renderWith f [] = [] := rfl

/-- A value mapping (`user_data`): placeholder name to value.  `dict.get`
is modelled by `List.lookup` (dict keys are unique). -/
abbrev ValMap := List (Name × List Char)

/-- The replacement string resolved by `_process_paragraphs`:
`str(user_data.get(name, f"...."))` — the mapped value if the name is a key,
otherwise the original token `\x7b\x7bname\x7d\x7d` re-emitted verbatim. -/
def resolveValue (ud : ValMap) (name : Name) : List Char :=
  match List.lookup name ud with
  | some v => v
  | none => '{' :: '{' :: (name ++ ['}', '}'])

/-- The replacement string used by `preview_replacements` for a match:
the mapped value if present, otherwise `f"\x7b\x7b \x7bkey\x7d \x7d\x7d"`,
i.e. the token with an extra space on each side of the name. -/
def previewResolve (ud : ValMap) (name : Name) : List Char :=
  match List.lookup name ud with
  | some v => v
  | none => '{' :: '{' :: ' ' :: (name ++ [' ', '}', '}'])

/-- One entry of `runs_info` in `_replace_text_in_paragraph`: the run's
position in the run list, its start/end character offsets in the paragraph's
full text, and its text.  (The Python dict also stores the run object itself;
`idx` stands for that object identity.) -/
structure RunInfo where
  idx : Nat
  start : Nat
  stop : Nat
  text : List Char
deriving DecidableEq, Repr

/-- The `runs_info` construction loop: cumulative start/end offsets of every
run, beginning at index `i` and character position `p` (the source starts the
loop at index 0 and `current_pos = 0`). -/
def buildRunsInfo : List Run → Nat → Nat → List RunInfo
  | [], _, _ => []
  | r :: rs, i, p => ⟨i, p, p + r.length, r⟩ :: buildRunsInfo rs (i + 1) (p + r.length)

/-- `affected_runs`: the runs whose `[start, end)` interval overlaps the
match span `[s, e)` — the filter `run_info['start'] < end_pos and
run_info['end'] > start_pos`. -/
def affectedRuns (info : List RunInfo) (s e : Nat) : List RunInfo :=
  info.filter (fun ri => ri.start < e && s < ri.stop)

/-- Body of `_replace_text_in_paragraph`, generalized over the index `i` and
character position `p` at which the `runs_info` loop starts (the source fixes
both to 0; the generalization is what the inductive proofs recurse on).
If no run is affected the paragraph is left unchanged.  If exactly one run is
affected its text becomes prefix + replacement + suffix.  If several runs are
affected: the first affected run keeps its pre-match prefix plus the whole
replacement, the last affected run keeps only its post-match suffix, every
affected run in between is emptied; unaffected runs are untouched.  No run is
ever removed from the list. -/
def replaceRunsFrom (runs : List Run) (i p s e : Nat) (repl : List Char) :
    List Run :=
  let info := buildRunsInfo runs i p
  match affectedRuns info s e with
  | [] => runs
  | a :: rest =>
    let firstR := a
    let lastR := (a :: rest).getLast (by simp)
    let cutStart := s - firstR.start
    let cutEnd := e - lastR.start
    if rest.isEmpty then
      info.map fun ri =>
        if ri.idx = firstR.idx then
          (ri.text.take cutStart ++ repl) ++ ri.text.drop cutEnd
        else ri.text
    else
      info.map fun ri =>
        if ri.idx = firstR.idx then ri.text.take cutStart ++ repl
        else if ri.idx = lastR.idx then ri.text.drop cutEnd
        else if ri.start < e && s < ri.stop then []
        else ri.text

/-- `_replace_text_in_paragraph(paragraph, start_pos, end_pos, replacement)`:
rewrite the runs of a paragraph so that the span `[s, e)` of its full text is
replaced by `repl`, preserving run structure (run texts are reassigned in
place, runs are never removed). -/
def replaceTextInParagraph (runs : List Run) (s e : Nat) (repl : List Char) :
    List Run :=
  replaceRunsFrom runs 0 0 s e repl

/-- The body of the `_process_paragraphs` loop for one paragraph: reconstruct
the full text (`paragraph.text` is the concatenation of the run texts), skip
if it contains no placeholder, find all matches, then process them in
reversed (right-to-left) order, resolving each name through the value
mapping. -/
def processParagraph (runs : Para) (ud : ValMap) : Para :=
  let fullText := runs.flatten
  if containsPlaceholders fullText then
    let ms := findMatches fullText 0
    if ms.isEmpty then runs
    else
      ms.reverse.foldl
        (fun rs m => replaceTextInParagraph rs m.s m.e (resolveValue ud m.name))
        runs
  else runs

/-! ## The document tree exposed by the docx library

A table is a list of rows; a row is a list of cells; a cell owns direct
paragraphs and possibly nested tables (arbitrary nesting depth).  A section
owns a header and a footer, each a paragraph + table container. -/

/-- A table: rows of cells, where a cell is a pair of its direct paragraphs
and its nested tables. -/
inductive Tbl where
  | mk : List (List (List Para × List Tbl)) → Tbl

/-- The rows of a table. -/
def Tbl.rows : Tbl → List (List (List Para × List Tbl))
  | .mk r => r

/-- A header or footer: paragraphs plus tables. -/
structure HdrFtr where
  paragraphs : List Para
  tables : List Tbl

/-- A document section with its header and footer (in python-docx
`section.header` / `section.footer` always exist and are truthy). -/
structure Sect where
  header : HdrFtr
  footer : HdrFtr

/-- The document object: body paragraphs, top-level body tables, sections. -/
structure Docx where
  paragraphs : List Para
  tables : List Tbl
  sections : List Sect

/-- `re.findall(pattern, paragraph.text)`: the captured names of all
matches, in match order. -/
def findAllNames (t : List Char) : List Name :=
  (findMatches t 0).map PMatch.name

/-- The direct paragraphs of every cell of a table, in traversal order:
`for row in table.rows: for cell in row.cells: cell.paragraphs`.  Nested
tables inside cells are NOT descended into (neither the generator nor the
parser recurses into them). -/
def tblDirectParas (t : Tbl) : List Para :=
  (t.rows.map (fun row => (row.map (fun cell => cell.1)).flatten)).flatten

/-! ## The substitution engine over the whole document
(`DocumentGenerator.generate_document` body, file I/O aside). -/

/-- `_process_paragraphs` over a list of paragraphs. -/
def processParagraphs (ps : List Para) (ud : ValMap) : List Para :=
  ps.map (fun p => processParagraph p ud)

/-- `_process_tables` applied to one table: every row's every cell's direct
paragraphs are processed; nested tables inside cells are left untouched
(the code never recurses into `cell.tables`). -/
def processTbl (t : Tbl) (ud : ValMap) : Tbl :=
  match t with
  | .mk rows =>
    .mk (rows.map (fun row =>
      row.map (fun cell => (cell.1.map (fun p => processParagraph p ud), cell.2))))

/-- `_process_tables` over a table list. -/
def processTables (ts : List Tbl) (ud : ValMap) : List Tbl :=
  ts.map (fun t => processTbl t ud)

/-- `_process_headers_footers` for one header or footer: its paragraphs and
its tables are processed. -/
def processHdrFtr (h : HdrFtr) (ud : ValMap) : HdrFtr :=
  ⟨processParagraphs h.paragraphs ud, processTables h.tables ud⟩

/-- In-memory core of `generate_document`: process body paragraphs, body
tables, and every section's header and footer (loading the template and
saving the result are I/O, out of scope of the text model). -/
def processDocument (doc : Docx) (ud : ValMap) : Docx :=
  ⟨processParagraphs doc.paragraphs ud,
   processTables doc.tables ud,
   doc.sections.map (fun sec => ⟨processHdrFtr sec.header ud, processHdrFtr sec.footer ud⟩)⟩

/-- All paragraphs the generator actually visits: body paragraphs, direct
cell paragraphs of top-level body tables, and for every section the header
and footer paragraphs plus the direct cell paragraphs of header/footer
tables. -/
def touchedParas (doc : Docx) : List Para :=
  doc.paragraphs
    ++ (doc.tables.map tblDirectParas).flatten
    ++ (doc.sections.map (fun sec =>
          sec.header.paragraphs ++ (sec.header.tables.map tblDirectParas).flatten
            ++ sec.footer.paragraphs
            ++ (sec.footer.tables.map tblDirectParas).flatten)).flatten

/-! ## The placeholder scanner (`TemplateParser._extract_placeholders`). -/

/-- The names collected by `_extract_placeholders`, in traversal order and
with multiplicity: body paragraphs, then every top-level table's every row's
every cell's direct paragraphs, then every section's header paragraphs and
footer paragraphs.  Nested tables and header/footer tables are not
visited. -/
def collectedNames (doc : Docx) : List Name :=
  (doc.paragraphs.map (fun p => findAllNames p.flatten)).flatten
    ++ (doc.tables.map (fun t =>
          ((tblDirectParas t).map (fun p => findAllNames p.flatten)).flatten)).flatten
    ++ (doc.sections.map (fun sec =>
          (sec.header.paragraphs.map (fun p => findAllNames p.flatten)).flatten
            ++ (sec.footer.paragraphs.map (fun p => findAllNames p.flatten)).flatten)).flatten

/-- Strict lexicographic comparison of names by character code, the order
Python's `sorted` uses on strings. -/
def strLt : List Char → List Char → Bool
  | [], [] => false
  | [], _ :: _ => true
  | _ :: _, [] => false
  | a :: as_, b :: bs => if a < b then true else if a = b then strLt as_ bs else false

/-- The non-strict version of `strLt`, as a relation. -/
def nameLe (a b : Name) : Prop := strLt b a = false

instance : DecidableRel nameLe := fun a b => by
  unfold nameLe; infer_instance

/-- `sorted(list(placeholders))` where `placeholders` is a `set`: dedup the
collected names (exact, case-sensitive string equality) and sort them
lexicographically. -/
def sortedNames (l : List Name) : List Name :=
  List.insertionSort nameLe l.dedup

/-- `_extract_placeholders`: the deduplicated, lexicographically sorted list
of all placeholder names found in the visited paragraphs. -/
def extractPlaceholders (doc : Docx) : List Name :=
  sortedNames (collectedNames doc)

/-! ## Spec-modelled reachability (what the specification says the scanner
covers).  `Modelled from the spec:` the spec requires every text-bearing
paragraph reachable from the document — body, every table cell at every
nesting depth, and header/footer paragraphs including tables therein — to be
scanned.  These functions enumerate that reachable set; the source has no
counterpart (nothing in it recurses into nested tables). -/

mutual

/-- All paragraphs of a table, including those of tables nested inside
cells at any depth. -/
def Tbl.allParas : Tbl → List Para
  | .mk rows => rowsAllParas rows

/-- All paragraphs of a list of rows. -/
def rowsAllParas : List (List (List Para × List Tbl)) → List Para
  | [] => []
  | row :: rest => cellsAllParas row ++ rowsAllParas rest

/-- All paragraphs of a list of cells. -/
def cellsAllParas : List (List Para × List Tbl) → List Para
  | [] => []
  | cell :: rest => cell.1 ++ tblsAllParas cell.2 ++ cellsAllParas rest

/-- All paragraphs of a list of tables. -/
def tblsAllParas : List Tbl → List Para
  | [] => []
  | t :: ts => Tbl.allParas t ++ tblsAllParas ts

end

/-- Every text-bearing paragraph reachable from the document, per the spec:
body paragraphs, all table-cell paragraphs at every nesting depth, and every
section's header/footer paragraphs including their tables' paragraphs. -/
def specReachableParas (doc : Docx) : List Para :=
  doc.paragraphs
    ++ tblsAllParas doc.tables
    ++ (doc.sections.map (fun sec =>
          sec.header.paragraphs ++ tblsAllParas sec.header.tables
            ++ sec.footer.paragraphs ++ tblsAllParas sec.footer.tables)).flatten

/-- The placeholder names the spec says the scanner must return: those of
every reachable paragraph. -/
def specReachableNames (doc : Docx) : List Name :=
  ((specReachableParas doc).map (fun p => findAllNames p.flatten)).flatten

/-! ## The schema classifier (`TemplateParser._generate_schema` and its
helpers). -/

/-- `needle in hay` for strings (Python substring test). -/
def isSubstr (needle hay : List Char) : Bool :=
  hay.tails.any (fun t => needle.isPrefixOf t)

/-- Python's `str.lower()` (ASCII fragment, all keywords are ASCII). -/
def lowerStr (s : List Char) : List Char := s.map Char.toLower

/-- Python's `str.title()`: the first letter of every alphabetical run is
uppercased, subsequent letters lowercased; non-letters pass through and reset
the run.  `prevCased` records whether the previous character was a letter. -/
def titleCaseGo : Bool → List Char → List Char
  | _, [] => []
  | prevCased, c :: rest =>
    (if c.isAlpha then (if prevCased then c.toLower else c.toUpper) else c)
      :: titleCaseGo c.isAlpha rest

/-- `str.title()`. -/
def titleCase (s : List Char) : List Char := titleCaseGo false s

/-- `TemplateParser.field_groups`: the ordered group table (Python dicts
preserve insertion order). -/
def field_groups : List (Name × List Name) :=
  [ (str "header",
      [str "nomor", str "number", str "tanggal", str "date", str "lampiran",
       str "attachment", str "hal", str "subject", str "perihal"]),
    (str "recipient",
      [str "kepada", str "recipient", str "yth", str "alamat", str "address",
       str "kota", str "location", str "tempat"]),
    (str "personal",
      [str "nama", str "name", str "nim", str "id", str "program",
       str "student", str "mahasiswa", str "prodi"]),
    (str "content",
      [str "judul", str "title", str "kegiatan", str "activity",
       str "penelitian", str "research", str "lama", str "duration",
       str "waktu", str "period", str "lokasi", str "isi"]),
    (str "signature",
      [str "penandatangan", str "signer", str "nip", str "jabatan",
       str "position", str "direktur", str "kepala"]),
    (str "other", []) ]

/-- `_humanize_field`: known Indonesian abbreviations by dictionary, else
underscores to spaces then title case. -/
def humanizeField (fieldName : Name) : List Char :=
  let replacements : List (Name × List Char) :=
    [ (str "nim", str "NIM"), (str "nip", str "NIP"), (str "nama", str "Nama"),
      (str "tanggal", str "Tanggal"), (str "nomor", str "Nomor"),
      (str "hal", str "Hal"), (str "prodi", str "Program Studi") ]
  match List.lookup (lowerStr fieldName) replacements with
  | some v => v
  | none => titleCase (fieldName.map (fun c => if c = '_' then ' ' else c))

/-- `_infer_field_type`: input type by keyword in the lowercased name. -/
def inferFieldType (fieldName : Name) : List Char :=
  let lower := lowerStr fieldName
  if [str "tanggal", str "date"].any (fun w => isSubstr w lower) then str "date"
  else if [str "email", str "surel"].any (fun w => isSubstr w lower) then str "email"
  else if [str "nomor", str "number", str "nim", str "nip"].any
      (fun w => isSubstr w lower) then str "text"
  else if [str "judul", str "title", str "kegiatan", str "activity",
      str "deskripsi", str "description"].any (fun w => isSubstr w lower) then
    str "textarea"
  else if [str "telepon", str "phone", str "hp"].any (fun w => isSubstr w lower) then
    str "tel"
  else str "text"

/-- `_translate_section_name`. -/
def translateSectionName (sectionName : Name) : List Char :=
  let translations : List (Name × List Char) :=
    [ (str "header", str "Kop Surat"), (str "recipient", str "Penerima"),
      (str "personal", str "Data Pribadi"), (str "content", str "Isi Surat"),
      (str "signature", str "Penandatangan"), (str "other", str "Lainnya") ]
  match List.lookup sectionName translations with
  | some v => v
  | none => titleCase sectionName

/-- One field descriptor of the generated schema (`field_config`).  The
Python key `type` is spelled `ftype` (`type` is reserved in Lean). -/
structure ParseField where
  name : Name
  label : List Char
  ftype : List Char
  required : Bool
  placeholder : List Char
deriving DecidableEq, Repr

/-- The `field_config` dictionary built for a claimed placeholder. -/
def mkFieldConfig (p : Name) : ParseField :=
  ⟨p, humanizeField p, inferFieldType p, true,
    str "Masukkan " ++ lowerStr (humanizeField p) ++ str "..."⟩

/-- One schema section. -/
structure SchemaSection where
  name : Name
  title : List Char
  fields : List ParseField
deriving DecidableEq, Repr

/-- The generated form schema. -/
structure Schema where
  sections : List SchemaSection
deriving DecidableEq, Repr

/-- The inner loop of `_generate_schema` for one group: walk the placeholder
list in order; skip names already claimed (`used_fields`); a name matching a
keyword (case-insensitive substring) is turned into a field and added to
`used_fields`.  Returns the group's fields and the grown `used_fields`. -/
def claimGroup (ps : List Name) (used : List Name) (kws : List Name) :
    List ParseField × List Name :=
  match ps with
  | [] => ([], used)
  | p :: rest =>
    if p ∈ used then claimGroup rest used kws
    else if kws.any (fun k => isSubstr k (lowerStr p)) then
      let r := claimGroup rest (used ++ [p]) kws
      (mkFieldConfig p :: r.1, r.2)
    else claimGroup rest used kws

/-- One step of the outer group loop of `_generate_schema`: the `other`
group is skipped; any other group appends its section when it claimed at
least one field. -/
def schemaStep (ps : List Name) (acc : List SchemaSection × List Name)
    (g : Name × List Name) : List SchemaSection × List Name :=
  if g.1 = str "other" then acc
  else
    let r := claimGroup ps acc.2 g.2
    (if r.1.isEmpty then acc.1
     else acc.1 ++ [⟨g.1, translateSectionName g.1, r.1⟩], r.2)

/-- `_generate_schema`: group placeholders into sections in group order,
then put every unclaimed placeholder into a final `other` section (appended
only when nonempty). -/
def generateSchema (placeholders : List Name) : Schema :=
  let r := field_groups.foldl (schemaStep placeholders) ([], [])
  let otherFields :=
    (placeholders.filter (fun p => ¬ p ∈ r.2)).map mkFieldConfig
  ⟨if otherFields.isEmpty then r.1
   else r.1 ++ [⟨str "other", str "Lainnya", otherFields⟩]⟩

/-! ## Operation boundaries (`parse_template`, `get_template_placeholders`,
`preview_replacements`).  Opening/reading the document is I/O; its outcome is
modelled as an `Except` input: `.error e` is a raised exception with message
`e`, `.ok doc` a successfully opened document. -/

/-- The structured result of `parse_template`. -/
structure ParseResult where
  success : Bool
  error : Option (List Char)
  placeholders : List Name
  schema : Schema
  field_count : Nat
deriving DecidableEq, Repr

/-- `TemplateParser.parse_template`: on a successfully opened document,
extract placeholders and generate the schema; any exception is caught and
converted into a structured failure result. -/
def parse_template (opened : Except (List Char) Docx) : ParseResult :=
  match opened with
  | .ok doc =>
    let placeholders := extractPlaceholders doc
    ⟨true, none, placeholders, generateSchema placeholders, placeholders.length⟩
  | .error e => ⟨false, some e, [], ⟨[]⟩, 0⟩

/-- `DocumentGenerator.get_template_placeholders`: same traversal and
sorted-set post-processing as `_extract_placeholders` (plus debug printing),
but any exception is swallowed and the empty list returned. -/
def get_template_placeholders (opened : Except (List Char) Docx) : List Name :=
  match opened with
  | .ok doc => sortedNames (collectedNames doc)
  | .error _ => []

/-- The (original, replaced) pairs reported by `preview_replacements`: body
paragraphs first, then table-cell paragraphs, keeping only paragraphs that
contain a placeholder; `replaced` is `re.sub` with the preview fallback
(`previewResolve`).  Location indices are determined by the list positions
and omitted. -/
def previewEntries (doc : Docx) (ud : ValMap) : List (List Char × List Char) :=
  ((doc.paragraphs.filter (fun p => containsPlaceholders p.flatten)).map
      (fun p => (p.flatten, renderWith (previewResolve ud) p.flatten)))
    ++ (((doc.tables.map tblDirectParas).flatten.filter
          (fun p => containsPlaceholders p.flatten)).map
      (fun p => (p.flatten, renderWith (previewResolve ud) p.flatten)))

/-! ## Helper lemmas: `take`/`drop` across appends. -/

theorem take_app_le {α : Type} (A B : List α) {n : Nat} (h : n ≤ A.length) :
    (A ++ B).take n = A.take n := by
  rw [List.take_append_eq_append_take]
  have : n - A.length = 0 := by omega
  rw [this]
  simp

theorem drop_app_le {α : Type} (A B : List α) {n : Nat} (h : n ≤ A.length) :
    (A ++ B).drop n = A.drop n ++ B := by
  rw [List.drop_append_eq_append_drop]
  have : n - A.length = 0 := by omega
  rw [this]
  simp

theorem take_app_ge {α : Type} (A B : List α) {n : Nat} (h : A.length ≤ n) :
    (A ++ B).take n = A ++ B.take (n - A.length) := by
  rw [List.take_append_eq_append_take]
  rw [List.take_of_length_le h]

theorem drop_app_ge {α : Type} (A B : List α) {n : Nat} (h : A.length ≤ n) :
    (A ++ B).drop n = B.drop (n - A.length) := by
  rw [List.drop_append_eq_append_drop]
  rw [List.drop_of_length_le h]
  simp

/-! ## Structural lemmas about `runs_info` and the affected-run filter. -/

theorem buildRunsInfo_texts :
    ∀ (rs : List Run) (i p : Nat), (buildRunsInfo rs i p).map RunInfo.text = rs := by
  intro rs
  induction rs with
  | nil => intro i p; rfl
  | cons r rest ih =>
    intro i p
    simp only [buildRunsInfo, List.map_cons, ih]

theorem mem_buildRunsInfo :
    ∀ {rs : List Run} {i p : Nat} {ri : RunInfo}, ri ∈ buildRunsInfo rs i p →
      i ≤ ri.idx ∧ p ≤ ri.start ∧ ri.stop = ri.start + ri.text.length := by
  intro rs
  induction rs with
  | nil => intro i p ri h; simp [buildRunsInfo] at h
  | cons r rest ih =>
    intro i p ri h
    simp only [buildRunsInfo, List.mem_cons] at h
    rcases h with h | h
    · subst h; simp
    · obtain ⟨h1, h2, h3⟩ := ih h
      exact ⟨by omega, by omega, h3⟩

/-- Any character position inside the paragraph's text lies inside some run. -/
theorem exists_run_containing :
    ∀ (rs : List Run) (i p s : Nat), p ≤ s → s < p + rs.flatten.length →
      ∃ ri ∈ buildRunsInfo rs i p, ri.start ≤ s ∧ s < ri.stop := by
  intro rs
  induction rs with
  | nil => intro i p s h1 h2; simp at h2; omega
  | cons r rest ih =>
    intro i p s h1 h2
    rw [List.flatten_cons, List.length_append] at h2
    by_cases hs : s < p + r.length
    · exact ⟨⟨i, p, p + r.length, r⟩, by simp [buildRunsInfo], h1, hs⟩
    · push_neg at hs
      have h2' : s < (p + r.length) + rest.flatten.length := by omega
      obtain ⟨ri, hmem, hle, hlt⟩ := ih (i + 1) (p + r.length) s hs h2'
      exact ⟨ri, by simp [buildRunsInfo, hmem], hle, hlt⟩

theorem affectedRuns_cons (ri : RunInfo) (info : List RunInfo) (s e : Nat) :
    affectedRuns (ri :: info) s e =
      if ri.start < e ∧ s < ri.stop then ri :: affectedRuns info s e
      else affectedRuns info s e := by
  simp only [affectedRuns, List.filter_cons]
  by_cases h1 : ri.start < e <;> by_cases h2 : s < ri.stop <;> simp [h1, h2]

theorem mem_affectedRuns {info : List RunInfo} {s e : Nat} {ri : RunInfo}
    (h : ri ∈ affectedRuns info s e) :
    ri ∈ info ∧ ri.start < e ∧ s < ri.stop := by
  simp only [affectedRuns, List.mem_filter, Bool.and_eq_true,
    decide_eq_true_eq] at h
  exact ⟨h.1, h.2.1, h.2.2⟩

theorem affectedRuns_eq_nil {info : List RunInfo} {s e : Nat}
    (h : affectedRuns info s e = []) :
    ∀ ri ∈ info, ¬ (ri.start < e ∧ s < ri.stop) := by
  intro ri hmem hc
  have : ri ∈ affectedRuns info s e := by
    simp only [affectedRuns, List.mem_filter, Bool.and_eq_true,
      decide_eq_true_eq]
    exact ⟨hmem, hc.1, hc.2⟩
  rw [h] at this
  cases this

theorem map_texts_of_unaffected {info : List RunInfo} {s e : Nat}
    {g : RunInfo → List Char}
    (hg : ∀ ri ∈ info, ¬ (ri.start < e ∧ s < ri.stop) → g ri = ri.text)
    (h : affectedRuns info s e = []) :
    info.map g = info.map RunInfo.text :=
  List.map_congr_left fun ri hm => hg ri hm (affectedRuns_eq_nil h ri hm)

/-- Suffix-side behaviour of the multi-run rewrite: over runs that all start
strictly after the match start, clearing every affected run except the last —
which keeps its text after `cutEnd` — concatenates to the paragraph-suffix
after the match end. -/
theorem replaceTail (A : RunInfo → List Char) (s e : Nat) :
    ∀ (rs : List Run) (i p i0 : Nat) (lastR : RunInfo),
      i0 < i → s < p → e ≤ p + rs.flatten.length →
      (affectedRuns (buildRunsInfo rs i p) s e).getLast? = some lastR →
      ((buildRunsInfo rs i p).map (fun ri =>
          if ri.idx = i0 then A ri
          else if ri.idx = lastR.idx then ri.text.drop (e - lastR.start)
          else if ri.start < e && s < ri.stop then ([] : List Char)
          else ri.text)).flatten
        = rs.flatten.drop (e - p) := by
  intro rs
  induction rs with
  | nil =>
    intro i p i0 lastR h0 h1 h2 hlast
    simp [buildRunsInfo, affectedRuns] at hlast
  | cons r rest ih =>
    intro i p i0 lastR h0 h1 h2 hlast
    rw [List.flatten_cons, List.length_append] at h2
    set hd : RunInfo := ⟨i, p, p + r.length, r⟩ with hhd
    have hdaff : hd.start < e ∧ s < hd.stop := by
      constructor
      · -- some affected run exists; every run starts at or after p
        rcases haff : affectedRuns (buildRunsInfo (r :: rest) i p) s e with _ | ⟨a, _⟩
        · rw [haff] at hlast; cases hlast
        · have hmem := mem_affectedRuns (haff ▸ List.mem_cons_self a _)
          have := (mem_buildRunsInfo hmem.1).2.1
          have : p ≤ a.start := this
          simp only [hhd]
          omega
      · simp only [hhd]
        omega
    rw [show buildRunsInfo (r :: rest) i p =
          hd :: buildRunsInfo rest (i + 1) (p + r.length) from rfl,
        affectedRuns_cons, if_pos hdaff] at hlast
    rw [show buildRunsInfo (r :: rest) i p =
          hd :: buildRunsInfo rest (i + 1) (p + r.length) from rfl,
        List.map_cons, List.flatten_cons]
    rcases haff' : affectedRuns (buildRunsInfo rest (i + 1) (p + r.length)) s e with
      _ | ⟨a, rest_a⟩
    · -- the head run is the last affected run
      rw [haff'] at hlast
      simp only [List.getLast?_singleton, Option.some.injEq] at hlast
      have hlr : lastR = hd := hlast.symm
      subst hlr
      have he : e ≤ p + r.length := by
        by_contra hgt
        push_neg at hgt
        have hpos : 0 < rest.flatten.length := by omega
        obtain ⟨ri, hmem, hle, hlt⟩ :=
          exists_run_containing rest (i + 1) (p + r.length) (p + r.length)
            (Nat.le_refl _) (by omega)
        exact affectedRuns_eq_nil haff' ri hmem ⟨by omega, by omega⟩
      have hmap : (buildRunsInfo rest (i + 1) (p + r.length)).map (fun ri =>
          if ri.idx = i0 then A ri
          else if ri.idx = hd.idx then ri.text.drop (e - hd.start)
          else if ri.start < e && s < ri.stop then ([] : List Char)
          else ri.text) = (buildRunsInfo rest (i + 1) (p + r.length)).map RunInfo.text := by
        apply List.map_congr_left
        intro ri hm
        have hidx := (mem_buildRunsInfo hm).1
        have hna := affectedRuns_eq_nil haff' ri hm
        rw [if_neg (by simp only [hhd] at *; omega),
          if_neg (by simp only [hhd] at *; omega)]
        rw [if_neg (by simpa using hna)]
      rw [hmap, buildRunsInfo_texts]
      have hhdval : (if hd.idx = i0 then A hd
          else if hd.idx = hd.idx then hd.text.drop (e - hd.start)
          else if hd.start < e && s < hd.stop then ([] : List Char)
          else hd.text) = r.drop (e - p) := by
        rw [if_neg (by simp only [hhd]; omega), if_pos rfl]
      rw [hhdval, List.flatten_cons, drop_app_le r rest.flatten (by omega)]
    · -- the last affected run lies strictly further right
      rw [haff'] at hlast
      rw [List.getLast?_cons_cons] at hlast
      have hlmem : lastR ∈ a :: rest_a := by
        have := List.getLast?_eq_getLast (a :: rest_a) (by simp)
        rw [this] at hlast
        cases hlast
        exact List.getLast_mem _
      have hlaff := mem_affectedRuns (haff' ▸ hlmem)
      have hlinfo := mem_buildRunsInfo hlaff.1
      have hlstart : p + r.length ≤ lastR.start := hlinfo.2.1
      have hlidx : i + 1 ≤ lastR.idx := hlinfo.1
      have hlt_e : p + r.length < e := by
        have := hlaff.2.1
        omega
      have hhdval : (if hd.idx = i0 then A hd
          else if hd.idx = lastR.idx then hd.text.drop (e - lastR.start)
          else if hd.start < e && s < hd.stop then ([] : List Char)
          else hd.text) = [] := by
        rw [if_neg (by simp only [hhd]; omega),
          if_neg (by simp only [hhd]; omega),
          if_pos (by simp only [hhd] at hdaff ⊢; simpa using hdaff)]
      rw [hhdval]
      rw [ih (i + 1) (p + r.length) i0 lastR (by omega) (by omega) (by omega)
        (by rw [haff']; exact hlast)]
      rw [List.flatten_cons, drop_app_ge r rest.flatten (by omega)]
      simp only [List.nil_append]
      congr 1
      omega

theorem replaceRunsFrom_eq_of_nil {runs : List Run} {i p s e : Nat}
    {repl : List Char}
    (haff : affectedRuns (buildRunsInfo runs i p) s e = []) :
    replaceRunsFrom runs i p s e repl = runs := by
  unfold replaceRunsFrom
  simp only [haff]

theorem replaceRunsFrom_eq_of_cons {runs : List Run} {i p s e : Nat}
    {repl : List Char} {a lastR : RunInfo} {rest_a : List RunInfo}
    (haff : affectedRuns (buildRunsInfo runs i p) s e = a :: rest_a)
    (hl : (a :: rest_a).getLast? = some lastR) :
    replaceRunsFrom runs i p s e repl =
      if rest_a.isEmpty then
        (buildRunsInfo runs i p).map (fun ri =>
          if ri.idx = a.idx then
            (ri.text.take (s - a.start) ++ repl) ++ ri.text.drop (e - lastR.start)
          else ri.text)
      else
        (buildRunsInfo runs i p).map (fun ri =>
          if ri.idx = a.idx then ri.text.take (s - a.start) ++ repl
          else if ri.idx = lastR.idx then ri.text.drop (e - lastR.start)
          else if ri.start < e && s < ri.stop then []
          else ri.text) := by
  have hgl : (a :: rest_a).getLast (by simp) = lastR := by
    rw [List.getLast?_eq_getLast _ (by simp), Option.some_inj] at hl
    exact hl
  unfold replaceRunsFrom
  simp only [haff]
  rw [hgl]

/-- The fundamental splice property of `_replace_text_in_paragraph`
(generalized over the loop origin `(i, p)`): rewriting the span `[s, e)` of
the paragraph's full text with `repl` yields runs that concatenate to
`prefix ++ repl ++ suffix` of the original full text. -/
theorem replaceRunsFrom_flatten :
    ∀ (runs : List Run) (i p s e : Nat) (repl : List Char),
      p ≤ s → s < e → e ≤ p + runs.flatten.length →
      (replaceRunsFrom runs i p s e repl).flatten
        = runs.flatten.take (s - p) ++ repl ++ runs.flatten.drop (e - p) := by
  intro runs
  induction runs with
  | nil =>
    intro i p s e repl hps hse hbound
    simp at hbound
    omega
  | cons r rest ih =>
    intro i p s e repl hps hse hbound
    rw [List.flatten_cons, List.length_append] at hbound
    have hinfo : buildRunsInfo (r :: rest) i p =
        (⟨i, p, p + r.length, r⟩ : RunInfo) :: buildRunsInfo rest (i + 1) (p + r.length) := rfl
    by_cases hs : s < p + r.length
    · -- the head run is the first affected run
      have hdaff : (⟨i, p, p + r.length, r⟩ : RunInfo).start < e ∧
          s < (⟨i, p, p + r.length, r⟩ : RunInfo).stop := ⟨by simp; omega, by simpa⟩
      rcases haff' : affectedRuns (buildRunsInfo rest (i + 1) (p + r.length)) s e with
        _ | ⟨a, rest_a⟩
      · -- single affected run
        have haff : affectedRuns (buildRunsInfo (r :: rest) i p) s e =
            [⟨i, p, p + r.length, r⟩] := by
          rw [hinfo, affectedRuns_cons, if_pos hdaff, haff']
        have he : e ≤ p + r.length := by
          by_contra hgt
          push_neg at hgt
          obtain ⟨ri, hmem, hle, hlt⟩ :=
            exists_run_containing rest (i + 1) (p + r.length) (p + r.length)
              (Nat.le_refl _) (by omega)
          exact affectedRuns_eq_nil haff' ri hmem ⟨by omega, by omega⟩
        rw [replaceRunsFrom_eq_of_cons haff
          (show ([(⟨i, p, p + r.length, r⟩ : RunInfo)] : List RunInfo).getLast? =
            some ⟨i, p, p + r.length, r⟩ from rfl)]
        rw [if_pos (show (List.isEmpty ([] : List RunInfo)) = true from rfl),
          hinfo, List.map_cons, List.flatten_cons]
        have hhd : (if (⟨i, p, p + r.length, r⟩ : RunInfo).idx =
              (⟨i, p, p + r.length, r⟩ : RunInfo).idx then
            ((⟨i, p, p + r.length, r⟩ : RunInfo).text.take
                (s - (⟨i, p, p + r.length, r⟩ : RunInfo).start) ++ repl) ++
              (⟨i, p, p + r.length, r⟩ : RunInfo).text.drop
                (e - (⟨i, p, p + r.length, r⟩ : RunInfo).start)
          else (⟨i, p, p + r.length, r⟩ : RunInfo).text)
            = (r.take (s - p) ++ repl) ++ r.drop (e - p) := by
          rw [if_pos rfl]
        rw [hhd]
        have hmap : (buildRunsInfo rest (i + 1) (p + r.length)).map (fun ri =>
            if ri.idx = (⟨i, p, p + r.length, r⟩ : RunInfo).idx then
              (ri.text.take (s - (⟨i, p, p + r.length, r⟩ : RunInfo).start) ++ repl) ++
                ri.text.drop (e - (⟨i, p, p + r.length, r⟩ : RunInfo).start)
            else ri.text)
            = (buildRunsInfo rest (i + 1) (p + r.length)).map RunInfo.text := by
          apply List.map_congr_left
          intro ri hm
          have hidx := (mem_buildRunsInfo hm).1
          rw [if_neg (by simp at hidx ⊢; omega)]
        rw [hmap, buildRunsInfo_texts]
        rw [List.flatten_cons, take_app_le r rest.flatten (by omega),
          drop_app_le r rest.flatten (by omega)]
        simp
      · -- the match spans several runs
        have haff : affectedRuns (buildRunsInfo (r :: rest) i p) s e =
            ⟨i, p, p + r.length, r⟩ :: a :: rest_a := by
          rw [hinfo, affectedRuns_cons, if_pos hdaff, haff']
        obtain ⟨lastR, hgl⟩ : ∃ x, (a :: rest_a : List RunInfo).getLast? = some x :=
          ⟨_, List.getLast?_eq_getLast _ (by simp)⟩
        have hlmem : lastR ∈ a :: rest_a := by
          rw [List.getLast?_eq_getLast _ (by simp), Option.some_inj] at hgl
          rw [← hgl]
          exact List.getLast_mem _
        have hgl2 : ((⟨i, p, p + r.length, r⟩ : RunInfo) :: a :: rest_a).getLast? =
            some lastR := by
          rw [List.getLast?_cons_cons]
          exact hgl
        have hlaff := mem_affectedRuns (haff' ▸ hlmem)
        have hlinfo := mem_buildRunsInfo hlaff.1
        have hlstart : p + r.length ≤ lastR.start := hlinfo.2.1
        have hlidx : i + 1 ≤ lastR.idx := hlinfo.1
        have hlt_e : p + r.length < e := by have := hlaff.2.1; omega
        rw [replaceRunsFrom_eq_of_cons haff hgl2]
        rw [if_neg (show ¬ (List.isEmpty (a :: rest_a) = true) from by simp),
          hinfo, List.map_cons, List.flatten_cons]
        have hhd : (if (⟨i, p, p + r.length, r⟩ : RunInfo).idx =
              (⟨i, p, p + r.length, r⟩ : RunInfo).idx then
            (⟨i, p, p + r.length, r⟩ : RunInfo).text.take
              (s - (⟨i, p, p + r.length, r⟩ : RunInfo).start) ++ repl
          else if (⟨i, p, p + r.length, r⟩ : RunInfo).idx = lastR.idx then
            (⟨i, p, p + r.length, r⟩ : RunInfo).text.drop (e - lastR.start)
          else if (⟨i, p, p + r.length, r⟩ : RunInfo).start < e &&
              s < (⟨i, p, p + r.length, r⟩ : RunInfo).stop then []
          else (⟨i, p, p + r.length, r⟩ : RunInfo).text)
            = r.take (s - p) ++ repl := by
          rw [if_pos rfl]
        rw [hhd]
        have htail := replaceTail
          (fun ri => ri.text.take (s - (⟨i, p, p + r.length, r⟩ : RunInfo).start) ++ repl)
          s e rest (i + 1) (p + r.length) i lastR
          (by omega) (by omega) (by omega)
          (by rw [haff']; exact hgl)
        rw [show (fun (ri : RunInfo) =>
            if ri.idx = (⟨i, p, p + r.length, r⟩ : RunInfo).idx then
              ri.text.take (s - (⟨i, p, p + r.length, r⟩ : RunInfo).start) ++ repl
            else if ri.idx = lastR.idx then ri.text.drop (e - lastR.start)
            else if ri.start < e && s < ri.stop then []
            else ri.text) = (fun (ri : RunInfo) =>
            if ri.idx = i then
              ri.text.take (s - (⟨i, p, p + r.length, r⟩ : RunInfo).start) ++ repl
            else if ri.idx = lastR.idx then ri.text.drop (e - lastR.start)
            else if ri.start < e && s < ri.stop then []
            else ri.text) from rfl, htail]
        rw [List.flatten_cons, take_app_le r rest.flatten (by omega),
          drop_app_ge r rest.flatten (by omega)]
        have harith : e - p - r.length = e - (p + r.length) := by omega
        rw [harith]
    · -- the head run is untouched; recurse on the tail
      push_neg at hs
      have hdnaff : ¬ ((⟨i, p, p + r.length, r⟩ : RunInfo).start < e ∧
          s < (⟨i, p, p + r.length, r⟩ : RunInfo).stop) := by
        simp
        intro _
        omega
      have haff0 : affectedRuns (buildRunsInfo (r :: rest) i p) s e =
          affectedRuns (buildRunsInfo rest (i + 1) (p + r.length)) s e := by
        rw [hinfo, affectedRuns_cons, if_neg hdnaff]
      have hnonnil : affectedRuns (buildRunsInfo rest (i + 1) (p + r.length)) s e ≠ [] := by
        obtain ⟨ri, hmem, hle, hlt⟩ :=
          exists_run_containing rest (i + 1) (p + r.length) s hs (by omega)
        intro hnil
        exact affectedRuns_eq_nil hnil ri hmem ⟨by omega, by omega⟩
      rcases haff' : affectedRuns (buildRunsInfo rest (i + 1) (p + r.length)) s e with
        _ | ⟨a, rest_a⟩
      · exact absurd haff' hnonnil
      · have haff : affectedRuns (buildRunsInfo (r :: rest) i p) s e = a :: rest_a := by
          rw [haff0, haff']
        have hamem := mem_affectedRuns (haff' ▸ List.mem_cons_self a rest_a)
        have haidx : i + 1 ≤ a.idx := (mem_buildRunsInfo hamem.1).1
        obtain ⟨lastR, hgl⟩ : ∃ x, (a :: rest_a : List RunInfo).getLast? = some x :=
          ⟨_, List.getLast?_eq_getLast _ (by simp)⟩
        have hlmem : lastR ∈ a :: rest_a := by
          rw [List.getLast?_eq_getLast _ (by simp), Option.some_inj] at hgl
          rw [← hgl]
          exact List.getLast_mem _
        have hgl' : (a :: rest_a : List RunInfo).getLast? = some lastR := by
          rw [List.getLast?_eq_getLast _ (by simp), Option.some_inj] at hgl ⊢
          exact hgl
        have hlaff := mem_affectedRuns (haff' ▸ hlmem)
        have hlidx : i + 1 ≤ lastR.idx := (mem_buildRunsInfo hlaff.1).1
        have hstep : replaceRunsFrom (r :: rest) i p s e repl =
            r :: replaceRunsFrom rest (i + 1) (p + r.length) s e repl := by
          rw [replaceRunsFrom_eq_of_cons haff hgl', replaceRunsFrom_eq_of_cons haff' hgl']
          by_cases hre : rest_a.isEmpty
          · rw [if_pos hre, if_pos hre, hinfo, List.map_cons]
            have hhd : (if (⟨i, p, p + r.length, r⟩ : RunInfo).idx = a.idx then
                ((⟨i, p, p + r.length, r⟩ : RunInfo).text.take (s - a.start) ++ repl) ++
                  (⟨i, p, p + r.length, r⟩ : RunInfo).text.drop (e - lastR.start)
              else (⟨i, p, p + r.length, r⟩ : RunInfo).text) = r := by
              rw [if_neg (by simp at haidx ⊢; omega)]
            rw [hhd]
          · rw [if_neg hre, if_neg hre, hinfo, List.map_cons]
            have hhd : (if (⟨i, p, p + r.length, r⟩ : RunInfo).idx = a.idx then
                (⟨i, p, p + r.length, r⟩ : RunInfo).text.take (s - a.start) ++ repl
              else if (⟨i, p, p + r.length, r⟩ : RunInfo).idx = lastR.idx then
                (⟨i, p, p + r.length, r⟩ : RunInfo).text.drop (e - lastR.start)
              else if (⟨i, p, p + r.length, r⟩ : RunInfo).start < e &&
                  s < (⟨i, p, p + r.length, r⟩ : RunInfo).stop then []
              else (⟨i, p, p + r.length, r⟩ : RunInfo).text) = r := by
              rw [if_neg (by simp at haidx ⊢; omega),
                if_neg (by simp at hlidx ⊢; omega),
                if_neg (by simp; intro _; omega)]
            rw [hhd]
        rw [hstep, List.flatten_cons,
          ih (i + 1) (p + r.length) s e repl hs hse (by omega)]
        rw [List.flatten_cons, take_app_ge r rest.flatten (by omega),
          drop_app_ge r rest.flatten (by omega)]
        have h1 : s - p - r.length = s - (p + r.length) := by omega
        have h2 : e - p - r.length = e - (p + r.length) := by omega
        rw [h1, h2]
        simp

/-- The run list never changes length: runs are rewritten or emptied in
place, never removed or inserted. -/
theorem buildRunsInfo_length :
    ∀ (rs : List Run) (i p : Nat), (buildRunsInfo rs i p).length = rs.length := by
  intro rs
  induction rs with
  | nil => intro i p; rfl
  | cons r rest ih => intro i p; simp [buildRunsInfo, ih]

theorem replaceRunsFrom_length (runs : List Run) (i p s e : Nat) (repl : List Char) :
    (replaceRunsFrom runs i p s e repl).length = runs.length := by
  rcases haff : affectedRuns (buildRunsInfo runs i p) s e with _ | ⟨a, rest_a⟩
  · rw [replaceRunsFrom_eq_of_nil haff]
  · obtain ⟨lastR, hgl⟩ : ∃ x, (a :: rest_a : List RunInfo).getLast? = some x :=
      ⟨_, List.getLast?_eq_getLast _ (by simp)⟩
    rw [replaceRunsFrom_eq_of_cons haff hgl]
    by_cases hre : rest_a.isEmpty
    · rw [if_pos hre, List.length_map, buildRunsInfo_length]
    · rw [if_neg hre, List.length_map, buildRunsInfo_length]

/-! ## Properties of the match scan. -/

/-- Shifting the base position shifts every reported span. -/
theorem findMatches_shift :
    ∀ (n : Nat) (l : List Char), l.length ≤ n → ∀ (pos : Nat),
      findMatches l pos =
        (findMatches l 0).map (fun m => ⟨m.s + pos, m.e + pos, m.name⟩) := by
  intro n
  induction n with
  | zero =>
    intro l hl pos
    have : l = [] := List.length_eq_zero.mp (Nat.le_zero.mp hl)
    subst this
    rfl
  | succ n ih =>
    intro l hl pos
    cases l with
    | nil => rfl
    | cons c rest =>
      rw [findMatches_cons, findMatches_cons]
      rcases hm : tryMatch (c :: rest) with _ | ⟨name, rest'⟩
      · simp only []
        have hr : rest.length ≤ n := by simp at hl; omega
        rw [ih rest hr (pos + 1), ih rest hr 1, List.map_map]
        apply List.map_congr_left
        intro m _
        simp
        omega
      · simp only []
        have hlen := tryMatch_length hm
        have hr : rest'.length ≤ n := by simp at hlen hl; omega
        rw [ih rest' hr (pos + (name.length + 4)), ih rest' hr (0 + (name.length + 4)),
          List.map_cons, List.map_map]
        refine List.cons_eq_cons.mpr ⟨?_, ?_⟩
        · simp only [PMatch.mk.injEq]
          refine ⟨by omega, by omega, trivial⟩
        · apply List.map_congr_left
          intro m _
          simp only [Function.comp_apply, PMatch.mk.injEq]
          refine ⟨by omega, by omega, trivial⟩

/-- Soundness of the scan: every match starts at or after the base position,
spans exactly its token (`e = s + |name| + 4`, nonempty name), ends within
the text, and the matches are pairwise ordered and non-overlapping. -/
theorem findMatches_sound :
    ∀ (n : Nat) (l : List Char), l.length ≤ n → ∀ (pos : Nat),
      (∀ m ∈ findMatches l pos,
        pos ≤ m.s ∧ m.e = m.s + (m.name.length + 4) ∧ m.name ≠ [] ∧
          m.e ≤ pos + l.length) ∧
      (findMatches l pos).Pairwise (fun m1 m2 => m1.e ≤ m2.s) := by
  intro n
  induction n with
  | zero =>
    intro l hl pos
    have : l = [] := List.length_eq_zero.mp (Nat.le_zero.mp hl)
    subst this
    exact ⟨(fun m hm => nomatch hm), List.Pairwise.nil⟩
  | succ n ih =>
    intro l hl pos
    cases l with
    | nil => exact ⟨(fun m hm => nomatch hm), List.Pairwise.nil⟩
    | cons c rest =>
      rw [findMatches_cons]
      rcases hm : tryMatch (c :: rest) with _ | ⟨name, rest'⟩
      · simp only []
        have hr : rest.length ≤ n := by simp at hl; omega
        obtain ⟨hmem, hpair⟩ := ih rest hr (pos + 1)
        refine ⟨?_, hpair⟩
        intro m hmm
        obtain ⟨h1, h2, h3, h4⟩ := hmem m hmm
        exact ⟨by omega, h2, h3, by simp; omega⟩
      · simp only []
        have hlen := tryMatch_length hm
        have hname : name ≠ [] := (tryMatch_eq hm).2
        have hr : rest'.length ≤ n := by simp at hlen hl; omega
        obtain ⟨hmem, hpair⟩ := ih rest' hr (pos + (name.length + 4))
        constructor
        · intro m hmm
          rcases List.mem_cons.mp hmm with h | h
          · subst h
            refine ⟨Nat.le_refl _, rfl, hname, ?_⟩
            simp at hlen ⊢
            omega
          · obtain ⟨h1, h2, h3, h4⟩ := hmem m h
            refine ⟨by omega, h2, h3, ?_⟩
            simp at hlen ⊢
            omega
        · rw [List.pairwise_cons]
          refine ⟨?_, hpair⟩
          intro m hmm
          exact (hmem m hmm).1

/-- A text with no placeholder match renders to itself. -/
theorem renderWith_of_no_match :
    ∀ (n : Nat) (l : List Char), l.length ≤ n → findMatches l 0 = [] →
      ∀ (f : Name → List Char), renderWith f l = l := by
  intro n
  induction n with
  | zero =>
    intro l hl _ f
    have : l = [] := List.length_eq_zero.mp (Nat.le_zero.mp hl)
    subst this
    rfl
  | succ n ih =>
    intro l hl hnm f
    cases l with
    | nil => rfl
    | cons c rest =>
      rw [findMatches_cons] at hnm
      rw [renderWith_cons]
      rcases hm : tryMatch (c :: rest) with _ | ⟨name, rest'⟩
      · rw [hm] at hnm
        simp only [] at hnm ⊢
        have hr : rest.length ≤ n := by simp at hl; omega
        have h0 : findMatches rest 0 = [] := by
          have := findMatches_shift n rest hr 1
          rw [this] at hnm
          exact List.map_eq_nil_iff.mp hnm
        rw [ih rest hr h0 f]
      · rw [hm] at hnm
        cases hnm

/-! ## The right-to-left replacement fold, first on plain text, then lifted
to run lists. -/

/-- Replacing one match span within a text. -/
def foldStep (f : Name → List Char) (m : PMatch) (acc : List Char) : List Char :=
  acc.take m.s ++ f m.name ++ acc.drop m.e

/-- Processing a match list right-to-left (`reversed(placeholders)`) over a
text: the rightmost match is spliced first. -/
def textReplace (f : Name → List Char) (ms : List PMatch) (T : List Char) :
    List Char :=
  ms.foldr (foldStep f) T

/-- Matches entirely inside the suffix `B` commute with the prefix `A`. -/
theorem textReplace_shift (f : Name → List Char) :
    ∀ (ms : List PMatch) (A B : List Char),
      textReplace f (ms.map (fun m => ⟨m.s + A.length, m.e + A.length, m.name⟩))
          (A ++ B)
        = A ++ textReplace f ms B := by
  intro ms
  induction ms with
  | nil => intro A B; rfl
  | cons m rest ih =>
    intro A B
    simp only [List.map_cons, textReplace, List.foldr_cons]
    rw [show List.foldr (foldStep f)
        (A ++ B) (rest.map (fun m => ⟨m.s + A.length, m.e + A.length, m.name⟩)) =
      A ++ List.foldr (foldStep f) B rest from ih A B]
    simp only [foldStep]
    rw [show m.s + A.length = A.length + m.s by omega,
      show m.e + A.length = A.length + m.e by omega]
    rw [List.take_append, List.drop_append]
    simp

/-- Prefix preservation: replacements at or beyond position `k` leave the
first `k` characters (and at least `k` characters of length) intact. -/
theorem textReplace_prefix (f : Name → List Char) :
    ∀ (ms : List PMatch) (acc : List Char) (k : Nat),
      (∀ m ∈ ms, k ≤ m.s) → k ≤ acc.length →
      (textReplace f ms acc).take k = acc.take k ∧
        k ≤ (textReplace f ms acc).length := by
  intro ms
  induction ms with
  | nil => intro acc k _ hk; exact ⟨rfl, hk⟩
  | cons m rest ih =>
    intro acc k hms hk
    have hrest : ∀ m' ∈ rest, k ≤ m'.s := fun m' hm' => hms m' (List.mem_cons_of_mem m hm')
    obtain ⟨ih1, ih2⟩ := ih acc k hrest hk
    have hkm : k ≤ m.s := hms m (List.mem_cons_self m rest)
    set X := textReplace f rest acc with hX
    have hstep : textReplace f (m :: rest) acc = foldStep f m X := rfl
    rw [hstep]
    unfold foldStep
    have hlen : k ≤ (X.take m.s).length := by
      rw [List.length_take]
      omega
    constructor
    · rw [take_app_le _ _ (by rw [List.length_append]; omega)]
      rw [take_app_le _ _ hlen, List.take_take, Nat.min_eq_left hkm, ih1]
    · rw [List.length_append, List.length_append]
      omega

/-- The right-to-left fold over the scan's matches computes exactly the
left-to-right scan-and-replace. -/
theorem textReplace_eq_renderWith (f : Name → List Char) :
    ∀ (n : Nat) (T : List Char), T.length ≤ n →
      textReplace f (findMatches T 0) T = renderWith f T := by
  intro n
  induction n with
  | zero =>
    intro T hT
    have : T = [] := List.length_eq_zero.mp (Nat.le_zero.mp hT)
    subst this
    rfl
  | succ n ih =>
    intro T hT
    cases T with
    | nil => rfl
    | cons c rest =>
      rw [findMatches_cons, renderWith_cons]
      rcases hm : tryMatch (c :: rest) with _ | ⟨name, rest'⟩
      · simp only []
        have hr : rest.length ≤ n := by simp at hT; omega
        rw [findMatches_shift n rest hr 1]
        have hshift := textReplace_shift f (findMatches rest 0) [c] rest
        simp only [List.length_cons, List.length_nil, List.singleton_append] at hshift
        rw [show (1 : Nat) = 0 + 1 from rfl] at hshift
        simp only [Nat.zero_add] at hshift
        rw [hshift, ih rest hr]
      · simp only []
        have hlen := tryMatch_length hm
        have hTeq := (tryMatch_eq hm).1
        have hr : rest'.length ≤ n := by simp at hlen hT; omega
        rw [findMatches_shift n rest' hr (0 + (name.length + 4))]
        simp only [Nat.zero_add]
        have htok : (c :: rest) =
            ('{' :: '{' :: (name ++ '}' :: '}' :: [])) ++ rest' := by
          rw [hTeq]
          simp
        have htoklen : ('{' :: '{' :: (name ++ '}' :: '}' :: [])).length =
            name.length + 4 := by
          simp
        rw [show textReplace f
            (⟨0, name.length + 4, name⟩ ::
              (findMatches rest' 0).map
                (fun m => ⟨m.s + (name.length + 4), m.e + (name.length + 4), m.name⟩))
            (c :: rest)
          = foldStep f ⟨0, name.length + 4, name⟩
              (textReplace f
                ((findMatches rest' 0).map
                  (fun m => ⟨m.s + (name.length + 4), m.e + (name.length + 4), m.name⟩))
                (c :: rest)) from rfl]
        rw [htok, ← htoklen, textReplace_shift f (findMatches rest' 0) _ rest']
        rw [ih rest' hr]
        unfold foldStep
        simp only [List.take_zero, List.nil_append]
        rw [htoklen,
          show name.length + 4 = ('{' :: '{' :: (name ++ '}' :: '}' :: [])).length
            from htoklen.symm,
          List.drop_left]

/-- Lifting the text-level right-to-left fold to the run-level fold: as long
as the matches are in-bounds, ordered and non-overlapping, processing them
right-to-left through `_replace_text_in_paragraph` concatenates to the
text-level result. -/
theorem runsFold_eq_textReplace (f : Name → List Char) :
    ∀ (ms : List PMatch) (runs : List Run),
      (∀ m ∈ ms, m.s < m.e ∧ m.e ≤ runs.flatten.length) →
      ms.Pairwise (fun m1 m2 => m1.e ≤ m2.s) →
      (ms.foldr (fun m rs => replaceTextInParagraph rs m.s m.e (f m.name)) runs).flatten
        = textReplace f ms runs.flatten := by
  intro ms
  induction ms with
  | nil => intro runs _ _; rfl
  | cons m rest ih =>
    intro runs hb hp
    have hbm := hb m (List.mem_cons_self m rest)
    have hbrest : ∀ m' ∈ rest, m'.s < m'.e ∧ m'.e ≤ runs.flatten.length :=
      fun m' hm' => hb m' (List.mem_cons_of_mem m hm')
    rw [List.pairwise_cons] at hp
    have ihr := ih runs hbrest hp.2
    have hpre := textReplace_prefix f rest runs.flatten m.e hp.1 hbm.2
    rw [List.foldr_cons]
    have key := replaceRunsFrom_flatten
      (rest.foldr (fun m rs => replaceTextInParagraph rs m.s m.e (f m.name)) runs)
      0 0 m.s m.e (f m.name) (Nat.zero_le _) hbm.1
      (by rw [ihr]; omega)
    rw [show replaceTextInParagraph
        (rest.foldr (fun m rs => replaceTextInParagraph rs m.s m.e (f m.name)) runs)
        m.s m.e (f m.name)
      = replaceRunsFrom
        (rest.foldr (fun m rs => replaceTextInParagraph rs m.s m.e (f m.name)) runs)
        0 0 m.s m.e (f m.name) from rfl]
    rw [key, ihr]
    rw [show textReplace f (m :: rest) runs.flatten
      = foldStep f m (textReplace f rest runs.flatten) from rfl]
    unfold foldStep
    simp

/-- `processParagraph` in closed form: the right-to-left fold over the
matches of the original full text (both placeholder-presence guards collapse
into the fold, which is the identity when there is no match). -/
theorem processParagraph_eq (runs : Para) (ud : ValMap) :
    processParagraph runs ud =
      (findMatches runs.flatten 0).reverse.foldl
        (fun rs m => replaceTextInParagraph rs m.s m.e (resolveValue ud m.name))
        runs := by
  unfold processParagraph
  by_cases hc : containsPlaceholders runs.flatten
  · rw [if_pos hc]
    dsimp only
    by_cases hemp : (findMatches runs.flatten 0).isEmpty
    · rw [if_pos hemp]
      rw [List.isEmpty_iff.mp hemp]
      rfl
    · rw [if_neg hemp]
  · rw [if_neg hc]
    have hnil : findMatches runs.flatten 0 = [] := by
      unfold containsPlaceholders at hc
      simpa using hc
    rw [hnil]
    rfl

/-- The central paragraph invariant: after `_process_paragraphs` handles one
paragraph, the concatenation of its run texts equals the scan-and-replace of
its original full text. -/
theorem processParagraph_flatten (runs : Para) (ud : ValMap) :
    (processParagraph runs ud).flatten =
      renderWith (resolveValue ud) runs.flatten := by
  rw [processParagraph_eq, List.foldl_reverse]
  obtain ⟨hsound, hpair⟩ :=
    findMatches_sound runs.flatten.length runs.flatten (Nat.le_refl _) 0
  rw [show ((findMatches runs.flatten 0).foldr
      (fun x y => replaceTextInParagraph y x.s x.e (resolveValue ud x.name)) runs)
    = ((findMatches runs.flatten 0).foldr
      (fun m rs => replaceTextInParagraph rs m.s m.e (resolveValue ud m.name)) runs)
      from rfl]
  rw [runsFold_eq_textReplace (resolveValue ud) (findMatches runs.flatten 0) runs
    (by
      intro m hm
      obtain ⟨h1, h2, h3, h4⟩ := hsound m hm
      constructor
      · omega
      · simpa using h4)
    hpair]
  rw [textReplace_eq_renderWith (resolveValue ud) runs.flatten.length runs.flatten
    (Nat.le_refl _)]

/-- Two resolvers agreeing on every matched name render identically. -/
theorem renderWith_congr :
    ∀ (n : Nat) (l : List Char), l.length ≤ n →
      ∀ (f g : Name → List Char),
        (∀ nm ∈ (findMatches l 0).map PMatch.name, f nm = g nm) →
        renderWith f l = renderWith g l := by
  intro n
  induction n with
  | zero =>
    intro l hl _ _ _
    have : l = [] := List.length_eq_zero.mp (Nat.le_zero.mp hl)
    subst this
    rfl
  | succ n ih =>
    intro l hl f g hfg
    cases l with
    | nil => rfl
    | cons c rest =>
      rw [findMatches_cons] at hfg
      rw [renderWith_cons, renderWith_cons]
      rcases hm : tryMatch (c :: rest) with _ | ⟨name, rest'⟩
      · rw [hm] at hfg
        simp only [] at hfg ⊢
        have hr : rest.length ≤ n := by simp at hl; omega
        have hfg' : ∀ nm ∈ (findMatches rest 0).map PMatch.name, f nm = g nm := by
          intro nm hnm
          apply hfg
          rw [findMatches_shift n rest hr 1, List.map_map]
          simpa using hnm
        rw [ih rest hr f g hfg']
      · rw [hm] at hfg
        simp only [List.map_cons] at hfg ⊢
        have hlen := tryMatch_length hm
        have hr : rest'.length ≤ n := by simp at hlen hl; omega
        have hhead : f name = g name := hfg name (List.mem_cons_self _ _)
        have hfg' : ∀ nm ∈ (findMatches rest' 0).map PMatch.name, f nm = g nm := by
          intro nm hnm
          apply hfg
          apply List.mem_cons_of_mem
          rw [findMatches_shift n rest' hr (0 + (name.length + 4)), List.map_map]
          simpa using hnm
        rw [hhead, ih rest' hr f g hfg']

/-- A resolver that re-emits the original token for every matched name
renders the text to itself. -/
theorem renderWith_token_id :
    ∀ (n : Nat) (l : List Char), l.length ≤ n →
      ∀ (f : Name → List Char),
        (∀ nm ∈ (findMatches l 0).map PMatch.name,
          f nm = '{' :: '{' :: (nm ++ ['}', '}'])) →
        renderWith f l = l := by
  intro n
  induction n with
  | zero =>
    intro l hl _ _
    have : l = [] := List.length_eq_zero.mp (Nat.le_zero.mp hl)
    subst this
    rfl
  | succ n ih =>
    intro l hl f hf
    cases l with
    | nil => rfl
    | cons c rest =>
      rw [findMatches_cons] at hf
      rw [renderWith_cons]
      rcases hm : tryMatch (c :: rest) with _ | ⟨name, rest'⟩
      · rw [hm] at hf
        simp only [] at hf ⊢
        have hr : rest.length ≤ n := by simp at hl; omega
        have hf' : ∀ nm ∈ (findMatches rest 0).map PMatch.name,
            f nm = '{' :: '{' :: (nm ++ ['}', '}']) := by
          intro nm hnm
          apply hf
          rw [findMatches_shift n rest hr 1, List.map_map]
          simpa using hnm
        rw [ih rest hr f hf']
      · rw [hm] at hf
        simp only [List.map_cons] at hf ⊢
        have hlen := tryMatch_length hm
        have hTeq := (tryMatch_eq hm).1
        have hr : rest'.length ≤ n := by simp at hlen hl; omega
        have hhead := hf name (List.mem_cons_self _ _)
        have hf' : ∀ nm ∈ (findMatches rest' 0).map PMatch.name,
            f nm = '{' :: '{' :: (nm ++ ['}', '}']) := by
          intro nm hnm
          apply hf
          apply List.mem_cons_of_mem
          rw [findMatches_shift n rest' hr (0 + (name.length + 4)), List.map_map]
          simpa using hnm
        rw [hhead, ih rest' hr f hf', hTeq]
        simp

/-- A paragraph whose full text has no placeholder is left untouched. -/
theorem processParagraph_of_no_placeholder {runs : Para} {ud : ValMap}
    (hc : containsPlaceholders runs.flatten = false) :
    processParagraph runs ud = runs := by
  unfold processParagraph
  rw [if_neg (by simp [hc])]

/-- Pointwise-identity maps are the identity. -/
theorem map_id_of_mem {α : Type} {l : List α} {f : α → α}
    (h : ∀ a ∈ l, f a = a) : l.map f = l := by
  induction l with
  | nil => rfl
  | cons a rest ih =>
    rw [List.map_cons, h a (List.mem_cons_self a rest),
      ih (fun b hb => h b (List.mem_cons_of_mem a hb))]

/-- `runs_info` is positionally indexed by `idx`. -/
theorem buildRunsInfo_get :
    ∀ (rs : List Run) (i p : Nat) (ri : RunInfo), ri ∈ buildRunsInfo rs i p →
      (buildRunsInfo rs i p)[ri.idx - i]? = some ri := by
  intro rs
  induction rs with
  | nil => intro i p ri h; cases h
  | cons r rest ih =>
    intro i p ri h
    rcases List.mem_cons.mp h with h | h
    · subst h
      rw [show (⟨i, p, p + r.length, r⟩ : RunInfo).idx - i = 0 by simp]
      rw [show buildRunsInfo (r :: rest) i p =
        (⟨i, p, p + r.length, r⟩ : RunInfo) :: buildRunsInfo rest (i + 1) (p + r.length)
        from rfl, List.getElem?_cons_zero]
    · have hidx := (mem_buildRunsInfo h).1
      have hk : ri.idx - i = (ri.idx - (i + 1)) + 1 := by omega
      rw [show buildRunsInfo (r :: rest) i p =
        (⟨i, p, p + r.length, r⟩ : RunInfo) :: buildRunsInfo rest (i + 1) (p + r.length)
        from rfl, hk, List.getElem?_cons_succ]
      exact ih (i + 1) (p + r.length) ri h

theorem mem_of_getLast?_eq {α : Type} {l : List α} {x : α}
    (h : l.getLast? = some x) : x ∈ l := by
  cases l with
  | nil => cases h
  | cons a rest =>
    rw [List.getLast?_eq_getLast _ (by simp), Option.some_inj] at h
    rw [← h]
    exact List.getLast_mem _

/-- Run indices are strictly increasing through `runs_info`. -/
theorem buildRunsInfo_pairwise :
    ∀ (rs : List Run) (i p : Nat),
      (buildRunsInfo rs i p).Pairwise (fun x y => x.idx < y.idx) := by
  intro rs
  induction rs with
  | nil => intro i p; exact List.Pairwise.nil
  | cons r rest ih =>
    intro i p
    rw [show buildRunsInfo (r :: rest) i p =
      (⟨i, p, p + r.length, r⟩ : RunInfo) :: buildRunsInfo rest (i + 1) (p + r.length)
      from rfl, List.pairwise_cons]
    exact ⟨fun ri hri => by have := (mem_buildRunsInfo hri).1; simp; omega,
      ih (i + 1) (p + r.length)⟩

/-- The multi-run rewrite, run by run: when a match affects at least two
runs, the first affected run becomes its pre-match prefix plus the entire
replacement, the last affected run keeps only its post-match suffix, every
affected run strictly between them becomes empty, and the run count is
unchanged. -/
theorem replaceTextInParagraph_multi
    {runs : List Run} {s e : Nat} {repl : List Char}
    {a lastR : RunInfo} {rest_a : List RunInfo}
    (haff : affectedRuns (buildRunsInfo runs 0 0) s e = a :: rest_a)
    (hne : rest_a ≠ [])
    (hl : (a :: rest_a).getLast? = some lastR) :
    (replaceTextInParagraph runs s e repl).length = runs.length ∧
    (replaceTextInParagraph runs s e repl)[a.idx]? =
      some (a.text.take (s - a.start) ++ repl) ∧
    (replaceTextInParagraph runs s e repl)[lastR.idx]? =
      some (lastR.text.drop (e - lastR.start)) ∧
    ∀ ri ∈ a :: rest_a, ri.idx ≠ a.idx → ri.idx ≠ lastR.idx →
      (replaceTextInParagraph runs s e repl)[ri.idx]? = some [] := by
  have hlidx : a.idx < lastR.idx := by
    have hpair : (affectedRuns (buildRunsInfo runs 0 0) s e).Pairwise
        (fun x y => x.idx < y.idx) :=
      (buildRunsInfo_pairwise runs 0 0).sublist (List.filter_sublist _)
    rw [haff, List.pairwise_cons] at hpair
    have hlmem : lastR ∈ rest_a := by
      rcases rest_a with _ | ⟨b, bs⟩
      · exact absurd rfl hne
      · rw [List.getLast?_cons_cons] at hl
        exact mem_of_getLast?_eq hl
    exact hpair.1 lastR hlmem
  have hres : replaceTextInParagraph runs s e repl =
      (buildRunsInfo runs 0 0).map (fun ri =>
        if ri.idx = a.idx then ri.text.take (s - a.start) ++ repl
        else if ri.idx = lastR.idx then ri.text.drop (e - lastR.start)
        else if ri.start < e && s < ri.stop then []
        else ri.text) := by
    unfold replaceTextInParagraph
    rw [replaceRunsFrom_eq_of_cons haff hl,
      if_neg (by simpa using hne)]
  have hget : ∀ ri ∈ a :: rest_a,
      (buildRunsInfo runs 0 0)[ri.idx]? = some ri := by
    intro ri hri
    have hmem := (mem_affectedRuns (haff ▸ hri)).1
    have := buildRunsInfo_get runs 0 0 ri hmem
    simpa using this
  refine ⟨?_, ?_, ?_, ?_⟩
  · rw [hres, List.length_map, buildRunsInfo_length]
  · rw [hres, List.getElem?_map, hget a (List.mem_cons_self _ _)]
    simp
  · rw [hres, List.getElem?_map, hget lastR (mem_of_getLast?_eq hl)]
    simp only [Option.map_some']
    rw [if_neg (by omega)]
    simp
  · intro ri hri hia hil
    have hraff := mem_affectedRuns (haff ▸ hri)
    rw [hres, List.getElem?_map, hget ri hri]
    simp only [Option.map_some']
    rw [if_neg hia, if_neg hil,
      if_pos (by simp only [Bool.and_eq_true, decide_eq_true_eq]; exact ⟨hraff.2.1, hraff.2.2⟩)]

/-! ## Identity of the generator on placeholder-free content. -/

theorem processParagraphs_id {ps : List Para} {ud : ValMap}
    (h : ∀ p ∈ ps, containsPlaceholders p.flatten = false) :
    processParagraphs ps ud = ps :=
  map_id_of_mem (fun p hp => processParagraph_of_no_placeholder (h p hp))

theorem processTbl_id {t : Tbl} {ud : ValMap}
    (h : ∀ p ∈ tblDirectParas t, containsPlaceholders p.flatten = false) :
    processTbl t ud = t := by
  cases t with
  | mk rows =>
    show Tbl.mk (rows.map (fun row => row.map (fun cell =>
      (cell.1.map (fun p => processParagraph p ud), cell.2)))) = Tbl.mk rows
    congr 1
    apply map_id_of_mem
    intro row hrow
    apply map_id_of_mem
    intro cell hcell
    have hfst : cell.1.map (fun p => processParagraph p ud) = cell.1 := by
      apply map_id_of_mem
      intro p hp
      apply processParagraph_of_no_placeholder
      apply h
      unfold tblDirectParas
      rw [show (Tbl.mk rows).rows = rows from rfl]
      exact List.mem_flatten.mpr
        ⟨(row.map (fun cell => cell.1)).flatten, List.mem_map_of_mem _ hrow,
          List.mem_flatten.mpr ⟨cell.1, List.mem_map_of_mem _ hcell, hp⟩⟩
    rw [hfst]

theorem processTables_id {ts : List Tbl} {ud : ValMap}
    (h : ∀ t ∈ ts, ∀ p ∈ tblDirectParas t, containsPlaceholders p.flatten = false) :
    processTables ts ud = ts :=
  map_id_of_mem (fun t ht => processTbl_id (h t ht))

theorem processHdrFtr_id {hf : HdrFtr} {ud : ValMap}
    (h1 : ∀ p ∈ hf.paragraphs, containsPlaceholders p.flatten = false)
    (h2 : ∀ t ∈ hf.tables, ∀ p ∈ tblDirectParas t,
      containsPlaceholders p.flatten = false) :
    processHdrFtr hf ud = hf := by
  cases hf with
  | mk hps hts =>
    show HdrFtr.mk (processParagraphs hps ud) (processTables hts ud) = HdrFtr.mk hps hts
    rw [processParagraphs_id h1, processTables_id h2]

/-- A document none of whose generator-visited paragraphs contains a
placeholder passes through `generate_document`'s in-memory transform
entirely unchanged. -/
theorem processDocument_id (doc : Docx) (ud : ValMap)
    (h : ∀ p ∈ touchedParas doc, containsPlaceholders p.flatten = false) :
    processDocument doc ud = doc := by
  cases doc with
  | mk ps ts secs =>
    have htp : touchedParas ⟨ps, ts, secs⟩ =
        ps ++ (ts.map tblDirectParas).flatten
          ++ (secs.map (fun sec =>
              sec.header.paragraphs ++ (sec.header.tables.map tblDirectParas).flatten
                ++ sec.footer.paragraphs
                ++ (sec.footer.tables.map tblDirectParas).flatten)).flatten := rfl
    rw [htp] at h
    have hbody : ∀ p ∈ ps, containsPlaceholders p.flatten = false := by
      intro p hp
      exact h p (List.mem_append_left _ (List.mem_append_left _ hp))
    have htbl : ∀ t ∈ ts, ∀ p ∈ tblDirectParas t,
        containsPlaceholders p.flatten = false := by
      intro t ht p hp
      exact h p (List.mem_append_left _ (List.mem_append_right _
        (List.mem_flatten.mpr ⟨tblDirectParas t, List.mem_map_of_mem _ ht, hp⟩)))
    have hsec : ∀ sec ∈ secs, ∀ p ∈
        (sec.header.paragraphs ++ (sec.header.tables.map tblDirectParas).flatten
          ++ sec.footer.paragraphs
          ++ (sec.footer.tables.map tblDirectParas).flatten),
        containsPlaceholders p.flatten = false := by
      intro sec hsec p hp
      exact h p (List.mem_append_right _
        (List.mem_flatten.mpr ⟨_, List.mem_map_of_mem _ hsec, hp⟩))
    show (⟨processParagraphs ps ud, processTables ts ud,
      secs.map (fun sec =>
        ⟨processHdrFtr sec.header ud, processHdrFtr sec.footer ud⟩)⟩ : Docx)
      = ⟨ps, ts, secs⟩
    rw [processParagraphs_id hbody, processTables_id htbl]
    have hsecs : secs.map (fun sec =>
        (⟨processHdrFtr sec.header ud, processHdrFtr sec.footer ud⟩ : Sect)) = secs := by
      apply map_id_of_mem
      intro sec hs
      have hhd : processHdrFtr sec.header ud = sec.header := by
        apply processHdrFtr_id
        · intro p hp
          exact hsec sec hs p (List.mem_append_left _ (List.mem_append_left _
            (List.mem_append_left _ hp)))
        · intro t ht p hp
          exact hsec sec hs p (List.mem_append_left _ (List.mem_append_left _
            (List.mem_append_right _
              (List.mem_flatten.mpr ⟨_, List.mem_map_of_mem _ ht, hp⟩))))
      have hft : processHdrFtr sec.footer ud = sec.footer := by
        apply processHdrFtr_id
        · intro p hp
          exact hsec sec hs p (List.mem_append_left _ (List.mem_append_right _ hp))
        · intro t ht p hp
          exact hsec sec hs p (List.mem_append_right _
            (List.mem_flatten.mpr ⟨_, List.mem_map_of_mem _ ht, hp⟩))
      rw [hhd, hft]
    rw [hsecs]

/-! ## The lexicographic order used by `sorted`. -/

theorem strLt_irrefl : ∀ a : List Char, strLt a a = false := by
  intro a
  induction a with
  | nil => rfl
  | cons c rest ih =>
    unfold strLt
    rw [if_neg (lt_irrefl c), if_pos rfl]
    exact ih

theorem strLt_trans :
    ∀ (a b c : List Char), strLt a b = true → strLt b c = true →
      strLt a c = true := by
  intro a
  induction a with
  | nil =>
    intro b c hab hbc
    cases b with
    | nil => cases hab
    | cons bb bs =>
      cases c with
      | nil => cases hbc
      | cons cc cs => rfl
  | cons aa as_ ih =>
    intro b c hab hbc
    cases b with
    | nil => cases hab
    | cons bb bs =>
      cases c with
      | nil => cases hbc
      | cons cc cs =>
        unfold strLt at hab hbc ⊢
        by_cases h1 : aa < bb
        · by_cases h2 : bb < cc
          · rw [if_pos (lt_trans h1 h2)]
          · rw [if_neg h2] at hbc
            by_cases h3 : bb = cc
            · subst h3
              rw [if_pos h1]
            · rw [if_neg h3] at hbc
              cases hbc
        · rw [if_neg h1] at hab
          by_cases h4 : aa = bb
          · subst h4
            rw [if_pos rfl] at hab
            by_cases h2 : aa < cc
            · rw [if_pos h2]
            · rw [if_neg h2] at hbc ⊢
              by_cases h3 : aa = cc
              · subst h3
                rw [if_pos rfl] at hbc ⊢
                exact ih bs cs hab hbc
              · rw [if_neg h3] at hbc
                cases hbc
          · rw [if_neg h4] at hab
            cases hab

theorem strLt_trichotomy :
    ∀ (a b : List Char), strLt a b = true ∨ a = b ∨ strLt b a = true := by
  intro a
  induction a with
  | nil =>
    intro b
    cases b with
    | nil => exact Or.inr (Or.inl rfl)
    | cons bb bs => exact Or.inl rfl
  | cons aa as_ ih =>
    intro b
    cases b with
    | nil => exact Or.inr (Or.inr rfl)
    | cons bb bs =>
      rcases lt_trichotomy aa bb with h | h | h
      · exact Or.inl (by unfold strLt; rw [if_pos h])
      · subst h
        rcases ih bs with h | h | h
        · exact Or.inl (by unfold strLt; rw [if_neg (lt_irrefl aa), if_pos rfl]; exact h)
        · exact Or.inr (Or.inl (by rw [h]))
        · exact Or.inr (Or.inr (by unfold strLt; rw [if_neg (lt_irrefl aa), if_pos rfl]; exact h))
      · exact Or.inr (Or.inr (by unfold strLt; rw [if_pos h]))

instance : IsTotal Name nameLe := by
  constructor
  intro a b
  unfold nameLe
  by_cases h : strLt b a = false
  · exact Or.inl h
  · right
    rw [Bool.not_eq_false] at h
    by_contra hab
    rw [Bool.not_eq_false] at hab
    have := strLt_trans b a b h hab
    rw [strLt_irrefl] at this
    cases this

instance : IsTrans Name nameLe := by
  constructor
  intro a b c h1 h2
  unfold nameLe at h1 h2 ⊢
  by_contra hca
  rw [Bool.not_eq_false] at hca
  rcases strLt_trichotomy b a with h | h | h
  · rw [h] at h1; cases h1
  · subst h
    rw [hca] at h2
    cases h2
  · have := strLt_trans c a b hca h
    rw [this] at h2
    cases h2

/-- The scanner's output is sorted, duplicate-free, and contains exactly the
names collected from the visited paragraphs. -/
theorem sortedNames_spec (l : List Name) :
    (sortedNames l).Sorted nameLe ∧ (sortedNames l).Nodup ∧
      ∀ n, n ∈ sortedNames l ↔ n ∈ l := by
  refine ⟨List.sorted_insertionSort nameLe l.dedup, ?_, ?_⟩
  · exact ((List.perm_insertionSort nameLe l.dedup).nodup_iff).mpr l.nodup_dedup
  · intro n
    unfold sortedNames
    rw [(List.perm_insertionSort nameLe l.dedup).mem_iff, List.mem_dedup]

/-! ## Classifier: every placeholder lands in exactly one schema section. -/

/-- The names a group claims from `ps` given the already-used set: those not
yet used whose lowercased form contains one of the group's keywords. -/
def claimedOf (used kws ps : List Name) : List Name :=
  ps.filter (fun p => !(decide (p ∈ used)) && kws.any (fun k => isSubstr k (lowerStr p)))

/-- Closed form of the inner claiming loop on duplicate-free input. -/
theorem claimGroup_spec :
    ∀ (ps used kws : List Name), ps.Nodup →
      claimGroup ps used kws =
        ((claimedOf used kws ps).map mkFieldConfig, used ++ claimedOf used kws ps) := by
  intro ps
  induction ps with
  | nil => intro used kws _; simp [claimGroup, claimedOf]
  | cons p rest ih =>
    intro used kws hnd
    rw [List.nodup_cons] at hnd
    by_cases hp : p ∈ used
    · rw [show claimGroup (p :: rest) used kws = claimGroup rest used kws by
        rw [claimGroup]; rw [if_pos hp]]
      rw [show claimedOf used kws (p :: rest) = claimedOf used kws rest by
        unfold claimedOf; rw [List.filter_cons,
          if_neg (by simp [hp])]]
      exact ih used kws hnd.2
    · by_cases hm : kws.any (fun k => isSubstr k (lowerStr p))
      · rw [show claimGroup (p :: rest) used kws =
            (mkFieldConfig p :: (claimGroup rest (used ++ [p]) kws).1,
              (claimGroup rest (used ++ [p]) kws).2) by
          rw [claimGroup]; rw [if_neg hp, if_pos hm]]
        rw [show claimedOf used kws (p :: rest) = p :: claimedOf used kws rest by
          unfold claimedOf; rw [List.filter_cons, if_pos (by simp [hp, hm])]]
        rw [ih (used ++ [p]) kws hnd.2]
        have hsame : claimedOf (used ++ [p]) kws rest = claimedOf used kws rest := by
          unfold claimedOf
          apply List.filter_congr
          intro q hq
          have hqp : q ≠ p := fun hqp => hnd.1 (hqp ▸ hq)
          simp [hqp]
        rw [hsame]
        simp
      · rw [show claimGroup (p :: rest) used kws = claimGroup rest used kws by
          rw [claimGroup]; rw [if_neg hp, if_neg hm]]
        rw [show claimedOf used kws (p :: rest) = claimedOf used kws rest by
          unfold claimedOf; rw [List.filter_cons,
            if_neg (by simp [hp, hm])]]
        exact ih used kws hnd.2

/-- The sections of a section list containing a field named `n`. -/
def sectionsWith (l : List SchemaSection) (n : Name) : List SchemaSection :=
  l.filter (fun sec => sec.fields.any (fun fd => fd.name = n))

theorem sectionsWith_append (l1 l2 : List SchemaSection) (n : Name) :
    sectionsWith (l1 ++ l2) n = sectionsWith l1 n ++ sectionsWith l2 n := by
  unfold sectionsWith
  rw [List.filter_append]

theorem mkFieldConfig_any_name (claimed : List Name) (n : Name) :
    ((claimed.map mkFieldConfig).any (fun fd => fd.name = n)) = true ↔
      n ∈ claimed := by
  rw [List.any_eq_true]
  constructor
  · rintro ⟨fd, hfd, hname⟩
    obtain ⟨p, hp, hpfd⟩ := List.mem_map.mp hfd
    rw [decide_eq_true_eq] at hname
    rw [← hpfd] at hname
    have hpn : p = n := by simpa [mkFieldConfig] using hname
    exact hpn ▸ hp
  · intro hn
    exact ⟨mkFieldConfig n, List.mem_map_of_mem _ hn, by simp [mkFieldConfig]⟩

theorem claimedOf_not_used {used kws ps : List Name} {n : Name}
    (h : n ∈ claimedOf used kws ps) : n ∉ used := by
  have h2 := (List.mem_filter.mp h).2
  simp only [Bool.and_eq_true, Bool.not_eq_true', decide_eq_false_iff_not] at h2
  exact h2.1

theorem mem_claimedOf_iff {used kws ps : List Name} {n : Name} (hn : n ∈ ps) :
    n ∈ claimedOf used kws ps ↔
      n ∉ used ∧ kws.any (fun k => isSubstr k (lowerStr n)) = true := by
  unfold claimedOf
  rw [List.mem_filter]
  simp [hn]

/-- One group step preserves the claim-count invariant: every placeholder is
in exactly one section so far iff it has been used, in none otherwise. -/
theorem schemaStep_inv {ps : List Name} (hnd : ps.Nodup)
    (acc : List SchemaSection × List Name) (g : Name × List Name)
    (hinv : ∀ n ∈ ps, (sectionsWith acc.1 n).length = if n ∈ acc.2 then 1 else 0) :
    ∀ n ∈ ps, (sectionsWith (schemaStep ps acc g).1 n).length =
      if n ∈ (schemaStep ps acc g).2 then 1 else 0 := by
  intro n hn
  unfold schemaStep
  by_cases hg : g.1 = str "other"
  · rw [if_pos hg]
    exact hinv n hn
  · rw [if_neg hg]
    rw [claimGroup_spec ps acc.2 g.2 hnd]
    dsimp only
    by_cases hC : ((claimedOf acc.2 g.2 ps).map mkFieldConfig).isEmpty
    · rw [if_pos hC]
      have hCnil : claimedOf acc.2 g.2 ps = [] := by
        rcases hh : claimedOf acc.2 g.2 ps with _ | ⟨x, xs⟩
        · rfl
        · rw [hh] at hC
          cases hC
      rw [hCnil, List.append_nil]
      exact hinv n hn
    · rw [if_neg hC]
      rw [sectionsWith_append]
      rw [List.length_append]
      have hsingle : (sectionsWith
          [⟨g.1, translateSectionName g.1, (claimedOf acc.2 g.2 ps).map mkFieldConfig⟩] n).length
          = if n ∈ claimedOf acc.2 g.2 ps then 1 else 0 := by
        unfold sectionsWith
        rw [List.filter_cons]
        by_cases hmem : n ∈ claimedOf acc.2 g.2 ps
        · rw [if_pos (by
            simpa using (mkFieldConfig_any_name (claimedOf acc.2 g.2 ps) n).mpr hmem),
            if_pos hmem]
          rfl
        · rw [if_neg (by
            simp only [decide_eq_true_eq]
            intro hc
            exact hmem ((mkFieldConfig_any_name (claimedOf acc.2 g.2 ps) n).mp (by simpa using hc))),
            if_neg hmem]
          rfl
      rw [hinv n hn, hsingle]
      by_cases hu : n ∈ acc.2
      · have hnc : n ∉ claimedOf acc.2 g.2 ps := fun hc => claimedOf_not_used hc hu
        rw [if_pos hu, if_neg hnc, if_pos (List.mem_append_left _ hu)]
      · rw [if_neg hu]
        by_cases hc : n ∈ claimedOf acc.2 g.2 ps
        · rw [if_pos hc, if_pos (List.mem_append_right _ hc)]
        · rw [if_neg hc, if_neg (by
            intro hmem
            rcases List.mem_append.mp hmem with h | h
            · exact hu h
            · exact hc h)]

theorem schema_fold_inv {ps : List Name} (hnd : ps.Nodup) :
    ∀ (gs : List (Name × List Name)) (acc : List SchemaSection × List Name),
      (∀ n ∈ ps, (sectionsWith acc.1 n).length = if n ∈ acc.2 then 1 else 0) →
      ∀ n ∈ ps,
        (sectionsWith (gs.foldl (schemaStep ps) acc).1 n).length =
          if n ∈ (gs.foldl (schemaStep ps) acc).2 then 1 else 0 := by
  intro gs
  induction gs with
  | nil => intro acc hinv; exact hinv
  | cons g rest ih =>
    intro acc hinv
    rw [List.foldl_cons]
    exact ih (schemaStep ps acc g) (schemaStep_inv hnd acc g hinv)

/-- Every placeholder of a duplicate-free input appears in exactly one
section of the generated schema. -/
theorem generateSchema_unique {ps : List Name} (hnd : ps.Nodup) :
    ∀ n ∈ ps, (sectionsWith (generateSchema ps).sections n).length = 1 := by
  intro n hn
  have hr := schema_fold_inv hnd field_groups ([], [])
    (by intro n _; rfl) n hn
  unfold generateSchema
  dsimp only
  by_cases hOF : ((ps.filter (fun p => ¬ p ∈
      (field_groups.foldl (schemaStep ps) ([], [])).2)).map mkFieldConfig).isEmpty
  · rw [if_pos hOF]
    have hfil : ps.filter (fun p => ¬ p ∈
        (field_groups.foldl (schemaStep ps) ([], [])).2) = [] := by
      rcases hh : ps.filter (fun p => ¬ p ∈
          (field_groups.foldl (schemaStep ps) ([], [])).2) with _ | ⟨x, xs⟩
      · rfl
      · rw [hh] at hOF
        cases hOF
    have hmem : n ∈ (field_groups.foldl (schemaStep ps) ([], [])).2 := by
      by_contra hnm
      have : n ∈ ps.filter (fun p => ¬ p ∈
          (field_groups.foldl (schemaStep ps) ([], [])).2) :=
        List.mem_filter.mpr ⟨hn, by simpa using hnm⟩
      rw [hfil] at this
      cases this
    rw [hr, if_pos hmem]
  · rw [if_neg hOF]
    rw [sectionsWith_append, List.length_append, hr]
    have hsingle : (sectionsWith
        [⟨str "other", str "Lainnya",
          (ps.filter (fun p => ¬ p ∈
            (field_groups.foldl (schemaStep ps) ([], [])).2)).map mkFieldConfig⟩] n).length
        = if n ∈ ps.filter (fun p => ¬ p ∈
            (field_groups.foldl (schemaStep ps) ([], [])).2) then 1 else 0 := by
      unfold sectionsWith
      rw [List.filter_cons]
      by_cases hmem : n ∈ ps.filter (fun p => ¬ p ∈
          (field_groups.foldl (schemaStep ps) ([], [])).2)
      · rw [if_pos (by simpa using (mkFieldConfig_any_name _ n).mpr hmem), if_pos hmem]
        rfl
      · rw [if_neg (by
          simp only [decide_eq_true_eq]
          intro hc
          exact hmem ((mkFieldConfig_any_name _ n).mp (by simpa using hc))),
          if_neg hmem]
        rfl
    rw [hsingle]
    by_cases hu : n ∈ (field_groups.foldl (schemaStep ps) ([], [])).2
    · rw [if_pos hu, if_neg (by
        intro hmem
        have := List.mem_filter.mp hmem
        simp at this
        exact this.2 hu)]
    · rw [if_neg hu, if_pos (List.mem_filter.mpr ⟨hn, by simpa using hu⟩)]

/-- When every name matched in the visited paragraphs is a key of the value
mapping, `preview_replacements` reports exactly the texts that the generator
produces for those paragraphs. -/
theorem previewEntries_agree (doc : Docx) (ud : ValMap)
    (h : ∀ p ∈ doc.paragraphs ++ (doc.tables.map tblDirectParas).flatten,
      ∀ nm ∈ (findMatches p.flatten 0).map PMatch.name,
        (List.lookup nm ud).isSome = true) :
    previewEntries doc ud =
      ((doc.paragraphs ++ (doc.tables.map tblDirectParas).flatten).filter
        (fun p => containsPlaceholders p.flatten)).map
        (fun p => (p.flatten, (processParagraph p ud).flatten)) := by
  unfold previewEntries
  rw [List.filter_append, List.map_append]
  congr 1
  · apply List.map_congr_left
    intro p hp
    have hpmem : p ∈ doc.paragraphs := (List.mem_filter.mp hp).1
    have hnames := h p (List.mem_append_left _ hpmem)
    have hagree : renderWith (previewResolve ud) p.flatten =
        renderWith (resolveValue ud) p.flatten := by
      apply renderWith_congr p.flatten.length p.flatten (Nat.le_refl _)
      intro nm hnm
      obtain ⟨v, hv⟩ := Option.isSome_iff_exists.mp (hnames nm hnm)
      unfold previewResolve resolveValue
      rw [hv]
    rw [hagree, ← processParagraph_flatten]
  · apply List.map_congr_left
    intro p hp
    have hpmem : p ∈ (doc.tables.map tblDirectParas).flatten :=
      (List.mem_filter.mp hp).1
    have hnames := h p (List.mem_append_right _ hpmem)
    have hagree : renderWith (previewResolve ud) p.flatten =
        renderWith (resolveValue ud) p.flatten := by
      apply renderWith_congr p.flatten.length p.flatten (Nat.le_refl _)
      intro nm hnm
      obtain ⟨v, hv⟩ := Option.isSome_iff_exists.mp (hnames nm hnm)
      unfold previewResolve resolveValue
      rw [hv]
    rw [hagree, ← processParagraph_flatten]

/-! ## Claims. -/

/-- C1: for every paragraph and every value mapping, after the generator
processes that paragraph the concatenation of its runs' texts equals the
paragraph's original full text with each placeholder match (found against
the original full text) replaced by its resolved value and all other
characters preserved verbatim — for any number of matches per paragraph and
replacement values of differing lengths, because matches are processed in
descending order of original start offset. -/
theorem c1_paragraph_replacement_correct (runs : Para) (ud : ValMap) :
    (processParagraph runs ud).flatten =
      renderWith (resolveValue ud) runs.flatten :=
  processParagraph_flatten runs ud

/-- The three-run split-placeholder paragraph of the specification's
split-run test: runs `\x7b\x7bna`, `me`, `\x7d\x7d`. -/
def c2ExampleRuns : Para := [['{', '{', 'n', 'a'], ['m', 'e'], ['}', '}']]

/-- C2: a match spanning two or more runs rewrites the first affected run to
its pre-match prefix plus the whole replacement, the last affected run to
its post-match suffix alone, empties every affected run strictly between
them, and never changes the run count; in particular runs
`\x7b\x7bna` / `me` / `\x7d\x7d` with mapping `name ↦ Alice` become
`Alice` / empty / empty. -/
theorem c2_split_run_rewrite :
    (∀ (runs : List Run) (s e : Nat) (repl : List Char) (a lastR : RunInfo)
        (rest_a : List RunInfo),
      affectedRuns (buildRunsInfo runs 0 0) s e = a :: rest_a →
      rest_a ≠ [] →
      (a :: rest_a).getLast? = some lastR →
      (replaceTextInParagraph runs s e repl).length = runs.length ∧
      (replaceTextInParagraph runs s e repl)[a.idx]? =
        some (a.text.take (s - a.start) ++ repl) ∧
      (replaceTextInParagraph runs s e repl)[lastR.idx]? =
        some (lastR.text.drop (e - lastR.start)) ∧
      (∀ ri ∈ a :: rest_a, ri.idx ≠ a.idx → ri.idx ≠ lastR.idx →
        (replaceTextInParagraph runs s e repl)[ri.idx]? = some [])) ∧
    processParagraph c2ExampleRuns [(str "name", str "Alice")] =
      [str "Alice", [], []] :=
  ⟨fun _ _ _ _ _ _ _ haff hne hl => replaceTextInParagraph_multi haff hne hl,
    by decide⟩

/-- Witness for C2 at the specification's split-run example: the match
`[0, 8)` affects all three runs; the first run becomes the replacement, the
last becomes empty, and the run count is preserved. -/
theorem c2_split_run_rewrite_witness :
    affectedRuns (buildRunsInfo c2ExampleRuns 0 0) 0 8 =
      [⟨0, 0, 4, ['{', '{', 'n', 'a']⟩, ⟨1, 4, 6, ['m', 'e']⟩,
        ⟨2, 6, 8, ['}', '}']⟩] ∧
    (replaceTextInParagraph c2ExampleRuns 0 8 (str "Alice")).length =
      c2ExampleRuns.length ∧
    (replaceTextInParagraph c2ExampleRuns 0 8 (str "Alice"))[0]? =
      some ((['{', '{', 'n', 'a'] : List Char).take 0 ++ str "Alice") ∧
    (replaceTextInParagraph c2ExampleRuns 0 8 (str "Alice"))[2]? =
      some ((['}', '}'] : List Char).drop 2) := by
  have h := c2_split_run_rewrite.1 c2ExampleRuns 0 8 (str "Alice")
    ⟨0, 0, 4, ['{', '{', 'n', 'a']⟩ ⟨2, 6, 8, ['}', '}']⟩
    [⟨1, 4, 6, ['m', 'e']⟩, ⟨2, 6, 8, ['}', '}']⟩]
    (by decide) (by decide) (by decide)
  exact ⟨by decide, h.1, h.2.1, h.2.2.1⟩

/-- A document whose only placeholder sits in a table nested inside a
table cell (depth 2). -/
def c3NestedDoc : Docx :=
  ⟨[], [Tbl.mk [[([], [Tbl.mk [[([[['{', '{', 'x', '}', '}']]], [])]]])]]], []⟩

/-- C3 counterexample: the placeholder `x` occurs in a paragraph reachable
per the specification (inside a depth-2 nested table), yet the scanner's
result does not contain it — `_extract_placeholders` never descends into
`cell.tables`, nor into header/footer tables. -/
theorem c3_counterexample :
    (str "x") ∈ specReachableNames c3NestedDoc ∧
    (str "x") ∉ extractPlaceholders c3NestedDoc := by
  decide

/-- C3 (amended): the scan extracts exactly the names found in the
paragraphs it visits — body paragraphs, the direct cell paragraphs of
top-level body tables, and section header/footer paragraphs; placeholders
inside nested tables or inside header/footer tables are not extracted. -/
theorem c3_extract_scope (doc : Docx) (n : Name) :
    n ∈ extractPlaceholders doc ↔ n ∈ collectedNames doc :=
  (sortedNames_spec (collectedNames doc)).2.2 n

/-- The single-run paragraph `\x7b\x7bdate\x7d\x7d`. -/
def c4Runs : Para := [['{', '{', 'd', 'a', 't', 'e', '}', '}']]

/-- C4: a placeholder name absent from the value mapping resolves to the
literal token `\x7b\x7bname\x7d\x7d` itself, and a paragraph all of whose
matched names are absent is reproduced character-for-character (generation
never fails on a missing key — the resolver is total). -/
theorem c4_missing_key_identity :
    (∀ (ud : ValMap) (name : Name), List.lookup name ud = none →
      resolveValue ud name = '{' :: '{' :: (name ++ ['}', '}'])) ∧
    (∀ (runs : Para) (ud : ValMap),
      (∀ nm ∈ (findMatches runs.flatten 0).map PMatch.name,
        List.lookup nm ud = none) →
      (processParagraph runs ud).flatten = runs.flatten) := by
  constructor
  · intro ud name h
    unfold resolveValue
    rw [h]
  · intro runs ud h
    rw [processParagraph_flatten]
    apply renderWith_token_id runs.flatten.length runs.flatten (Nat.le_refl _)
    intro nm hnm
    unfold resolveValue
    rw [h nm hnm]

/-- Witness for C4: with an empty mapping, `\x7b\x7bdate\x7d\x7d` is left
verbatim in the output. -/
theorem c4_missing_key_identity_witness :
    List.lookup (str "date") ([] : ValMap) = none ∧
    (∀ nm ∈ (findMatches c4Runs.flatten 0).map PMatch.name,
      List.lookup nm ([] : ValMap) = none) ∧
    (processParagraph c4Runs []).flatten = c4Runs.flatten :=
  ⟨rfl, by decide, c4_missing_key_identity.2 c4Runs [] (by decide)⟩

/-- A document whose single body paragraph is `\x7b\x7bdate\x7d\x7d`. -/
def c5Doc : Docx := ⟨[[['{', '{', 'd', 'a', 't', 'e', '}', '}']]], [], []⟩

/-- C5 counterexample: with a mapping that lacks the key `date`, the
`replaced` text reported by `preview_replacements` is
`\x7b\x7b date \x7d\x7d` — the token with added spaces — while the
generator re-emits `\x7b\x7bdate\x7d\x7d` verbatim, so preview and generate
disagree on that paragraph. -/
theorem c5_counterexample :
    ¬ (previewEntries c5Doc [] =
      ((c5Doc.paragraphs ++ (c5Doc.tables.map tblDirectParas).flatten).filter
        (fun p => containsPlaceholders p.flatten)).map
        (fun p => (p.flatten, (processParagraph p []).flatten))) := by
  decide

/-- C5 (amended): for every body paragraph and table-cell paragraph that
contains a placeholder, the `replaced` text reported by
`preview_replacements` equals the full paragraph text the generator
produces, provided every placeholder name occurring in those paragraphs is a
key of the value mapping; for a name absent from the mapping the two
diverge — preview emits `\x7b\x7b name \x7d\x7d` with an extra space on each
side of the name, while generate re-emits `\x7b\x7bname\x7d\x7d`. -/
theorem c5_preview_matches_generate (doc : Docx) (ud : ValMap)
    (h : ∀ p ∈ doc.paragraphs ++ (doc.tables.map tblDirectParas).flatten,
      ∀ nm ∈ (findMatches p.flatten 0).map PMatch.name,
        (List.lookup nm ud).isSome = true) :
    previewEntries doc ud =
      ((doc.paragraphs ++ (doc.tables.map tblDirectParas).flatten).filter
        (fun p => containsPlaceholders p.flatten)).map
        (fun p => (p.flatten, (processParagraph p ud).flatten)) :=
  previewEntries_agree doc ud h

/-- Witness for C5 (amended): with `date` mapped, preview and generate
agree on `\x7b\x7bdate\x7d\x7d`. -/
theorem c5_preview_matches_generate_witness :
    (∀ p ∈ c5Doc.paragraphs ++ (c5Doc.tables.map tblDirectParas).flatten,
      ∀ nm ∈ (findMatches p.flatten 0).map PMatch.name,
        (List.lookup nm [(str "date", str "X")]).isSome = true) ∧
    previewEntries c5Doc [(str "date", str "X")] =
      ((c5Doc.paragraphs ++ (c5Doc.tables.map tblDirectParas).flatten).filter
        (fun p => containsPlaceholders p.flatten)).map
        (fun p => (p.flatten, (processParagraph p [(str "date", str "X")]).flatten)) :=
  ⟨by decide, c5_preview_matches_generate c5Doc [(str "date", str "X")] (by decide)⟩

/-- C6: `parse_template` converts a failed open/read into a structured
result with `success = false` and the error message, never letting the
exception escape; a readable document with zero placeholders instead yields
`success = true` with an empty placeholder list and an empty schema, so the
two outcomes are distinguishable by the `success` flag. -/
theorem c6_parse_template_boundaries :
    (∀ e, parse_template (.error e) =
      ⟨false, some e, [], ⟨[]⟩, 0⟩) ∧
    (∀ doc : Docx, extractPlaceholders doc = [] →
      parse_template (.ok doc) = ⟨true, none, [], ⟨[]⟩, 0⟩) := by
  constructor
  · intro e
    rfl
  · intro doc h
    show (⟨true, none, extractPlaceholders doc,
      generateSchema (extractPlaceholders doc),
      (extractPlaceholders doc).length⟩ : ParseResult) = _
    rw [h]
    rfl

/-- Witness for C6 at the empty document. -/
theorem c6_parse_template_boundaries_witness :
    extractPlaceholders ⟨[], [], []⟩ = [] ∧
    parse_template (.ok ⟨[], [], []⟩) = ⟨true, none, [], ⟨[]⟩, 0⟩ :=
  ⟨rfl, c6_parse_template_boundaries.2 ⟨[], [], []⟩ rfl⟩

/-- The classifier-determinism example names of the specification. -/
def c7Names : List Name := [str "nama", str "tanggal", str "custom_field"]

/-- C7: every placeholder of a (duplicate-free) name list lands in exactly
one section of the generated schema — the first group in declaration order
with a matching case-insensitive keyword claims it, later groups skip
claimed names, unmatched names fall into `other`; in particular `nama` goes
to the `personal` section with type `text`, `tanggal` to `header` with type
`date`, and `custom_field` to `other` with type `text`. -/
theorem c7_classifier_partition :
    (∀ ps : List Name, ps.Nodup → ∀ n ∈ ps,
      (sectionsWith (generateSchema ps).sections n).length = 1) ∧
    ((generateSchema c7Names).sections.map
      (fun sec => (sec.name, sec.fields.map (fun fd => (fd.name, fd.ftype))))) =
      [ (str "header", [(str "tanggal", str "date")]),
        (str "personal", [(str "nama", str "text")]),
        (str "other", [(str "custom_field", str "text")]) ] :=
  ⟨fun _ hnd => generateSchema_unique hnd, by decide⟩

/-- Witness for C7 at the specification's example names. -/
theorem c7_classifier_partition_witness :
    c7Names.Nodup ∧ (str "nama") ∈ c7Names ∧
    (sectionsWith (generateSchema c7Names).sections (str "nama")).length = 1 :=
  ⟨by decide, by decide,
    c7_classifier_partition.1 c7Names (by decide) (str "nama") (by decide)⟩

/-- C8: a document none of whose generator-visited paragraphs contains the
placeholder pattern passes through generation unchanged — every run text,
hence the whole document text, is preserved for any value mapping. -/
theorem c8_no_placeholder_identity (doc : Docx) (ud : ValMap)
    (h : ∀ p ∈ touchedParas doc, containsPlaceholders p.flatten = false) :
    processDocument doc ud = doc :=
  processDocument_id doc ud h

/-- A small placeholder-free document exercising body, table, header and
footer content. -/
def c8Doc : Docx :=
  ⟨[[str "hello world"]],
   [Tbl.mk [[([[str "cell text"]], [])]]],
   [⟨⟨[[str "header text"]], []⟩, ⟨[[str "footer text"]], []⟩⟩]⟩

/-- Witness for C8: the placeholder-free example document is returned
exactly as given. -/
theorem c8_no_placeholder_identity_witness :
    (∀ p ∈ touchedParas c8Doc, containsPlaceholders p.flatten = false) ∧
    processDocument c8Doc [(str "a", str "b")] = c8Doc :=
  ⟨by decide, c8_no_placeholder_identity c8Doc [(str "a", str "b")] (by decide)⟩

/-- C9: the scanner's output list is lexicographically sorted and free of
duplicates — each extracted name appears exactly once however often its
token occurs — and membership is decided by exact (case-sensitive) string
equality against the names collected from the visited paragraphs. -/
theorem c9_sorted_dedup (doc : Docx) :
    (extractPlaceholders doc).Sorted nameLe ∧
    (extractPlaceholders doc).Nodup ∧
    (∀ n, n ∈ extractPlaceholders doc ↔ n ∈ collectedNames doc) :=
  sortedNames_spec (collectedNames doc)

/-- C10: `get_template_placeholders` swallows any open/read exception and
returns the empty list, which is exactly what it also returns for a
successfully read template containing zero placeholders — the two outcomes
are indistinguishable from the result alone. -/
theorem c10_swallowed_errors :
    (∀ e, get_template_placeholders (.error e) = []) ∧
    get_template_placeholders (.ok ⟨[], [], []⟩) = [] :=
  ⟨fun _ => rfl, rfl⟩

end AutoLetter
